import Mathlib

/-!
Shallow embedding of the `github-second-brain` core in Lean 4, with proofs of
the specification claims C1 to C10.

Embedded source files:
  * `src/mcp/tools/fetch_directory_tree.py` — `_build_hierarchical_tree`,
    `_format_tree_recursively`, `format_github_tree_structure`.
  * `src/process_repo.py` — URL keying, the processed-repository index,
    ingestion, the digest parser, and the retrieval operations.

Modelling conventions:
  * Python strings are Lean `String`s; character-level operations work on
    `String.data` (Python indexes/slices by code points, as `List Char` does).
  * Python `str` comparison (used by `sorted`) is code-point lexicographic;
    it is embedded by the executable `strLt` below, because the kernel cannot
    reduce `String.<` on concrete input.
  * The filesystem is an explicit record `FS` (does `data/` exist, the parsed
    contents of `data/processed_repos.json`, raw text files, and JSON artifact
    files as already-parsed values).  The external `gitingest` subprocess is a
    parameter `ToolRun` carrying its exit code, captured stdout/stderr and the
    content it wrote to the output file, if any.
  * Python exceptions that escape a function are modelled with `Except`;
    functions that catch all exceptions and return strings return strings.
-/

namespace GSB

/-! ## Generic helpers: Python-style primitives, association lists -/

/-- Code-point comparison of characters, as Python compares characters. -/
def charLt (a b : Char) : Bool := a.toNat < b.toNat

/-- Code-point lexicographic comparison of character lists: the order Python
uses for `str < str` (and hence for `sorted` on strings). -/
def charsLt : List Char → List Char → Bool
  | [], [] => false
  | [], _ :: _ => true
  | _ :: _, [] => false
  | a :: as, b :: bs => charLt a b || (a = b && charsLt as bs)

/-- Python `a < b` on strings. -/
def strLt (a b : String) : Bool := charsLt a.data b.data

/-- Does the second list start with the first one?  (needle, then haystack.) -/
def charsLead : List Char → List Char → Bool
  | [], _ => true
  | _ :: _, [] => false
  | a :: as, b :: bs => a = b && charsLead as bs

/-- Python `s.startswith(pre)`. -/
def pyStartsWith (s pre : String) : Bool := charsLead pre.data s.data

/-- Python `s.endswith(suf)`. -/
def pyEndsWith (s suf : String) : Bool := charsLead suf.data.reverse s.data.reverse

/-- Index of the first occurrence of `needle` in the haystack, if any
(Python `str.find`, with `-1` modelled as `none`). -/
def findSubIdx (needle : List Char) : List Char → Option Nat
  | [] => if charsLead needle [] then some 0 else none
  | c :: rest =>
    if charsLead needle (c :: rest) then some 0
    else (findSubIdx needle rest).map (· + 1)

/-- Python `sub in s` on strings. -/
def containsSub (s sub : String) : Bool := (findSubIdx sub.data s.data).isSome

/-- Python `c in s` for a single character `c`. -/
def containsChar (s : String) (c : Char) : Bool := s.data.contains c

/-- Python `str.strip()` (whitespace from both ends; ASCII whitespace, which
covers every character appearing in this development). -/
def pyStrip (s : String) : String :=
  ⟨((s.data.dropWhile Char.isWhitespace).reverse.dropWhile Char.isWhitespace).reverse⟩

/-- Python `str.split(sep)` for a one-character separator, on character lists:
keeps empty pieces, always returns at least one piece. -/
def pySplit (sep : Char) : List Char → List (List Char)
  | [] => [[]]
  | c :: cs =>
    if c = sep then [] :: pySplit sep cs
    else
      match pySplit sep cs with
      | [] => [[c]]
      | h :: t => (c :: h) :: t

/-- Python `sep.join(pieces)` for a one-character separator, on character
lists. -/
def pyJoin (sep : Char) : List (List Char) → List Char
  | [] => []
  | [x] => x
  | x :: xs => x ++ sep :: pyJoin sep xs

/-- Python `str.split("/")` on strings, the form used by the tree builder. -/
def pySplitStr (s : String) (sep : Char) : List String :=
  (pySplit sep s.data).map fun l => ⟨l⟩

/-- The lines a Python file handle yields for a file with this content: each
line keeps its trailing newline; a last fragment without a newline is yielded
as is; `readline` past the end yields `""`. -/
def pyLinesAux : List Char → List Char → List (List Char)
  | [], [] => []
  | [], acc => [acc.reverse]
  | c :: cs, acc =>
    if c = '\n' then (acc.reverse ++ ['\n']) :: pyLinesAux cs []
    else pyLinesAux cs (c :: acc)

/-- Python line iteration over a file content string. -/
def pyLines (s : String) : List String := (pyLinesAux s.data []).map fun l => ⟨l⟩

/-- Python `os.path.join(a, b)` for the flavors appearing in the source:
an absolute second component replaces the first. -/
def pyPathJoin (a b : String) : String :=
  if pyStartsWith b "/" then b else a ++ "/" ++ b

/-- Index of the last occurrence of a character, if any. -/
def lastIdxOf (c : Char) : List Char → Option Nat
  | [] => none
  | x :: xs =>
    match lastIdxOf c xs with
    | some i => some (i + 1)
    | none => if x = c then some 0 else none

/-- Python `os.path.splitext(p)[0]`: cuts the last-dot extension of the final
path component; a dot leading the final component does not count. -/
def pySplitextBase (p : String) : String :=
  let cs := p.data
  match lastIdxOf '.' cs with
  | none => p
  | some di =>
    let base : Nat :=
      match lastIdxOf '/' cs with
      | some si => si + 1
      | none => 0
    if base < di then ⟨cs.take di⟩ else p

/-- Assignment `d[k] = v` on an insertion-ordered mapping modelled as an
association list: replaces in place, or appends a new key at the end. -/
def setAssoc {β : Type} : List (String × β) → String → β → List (String × β)
  | [], k, v => [(k, v)]
  | (k1, v1) :: rest, k, v =>
    if k1 = k then (k, v) :: rest else (k1, v1) :: setAssoc rest k v

/-- Lookup `d[k]` / `d.get(k)` on an association list. -/
def getAssoc {β : Type} : List (String × β) → String → Option β
  | [], _ => none
  | (k1, v1) :: rest, k => if k = k1 then some v1 else getAssoc rest k

/-- Python `k in d` on an association list. -/
def hasAssoc {β : Type} (l : List (String × β)) (k : String) : Bool :=
  (getAssoc l k).isSome

/-! ## Tree module (`src/mcp/tools/fetch_directory_tree.py`) -/

/-- Node of the hierarchical tree: a Python dict with an `"_type"` entry and
an optional `"children"` entry (every node the code builds carries `"_type"`,
so it is not optional here). -/
inductive Node where
  | mk (ty : String) (children : Option (List (String × Node)))

/-- The children dict of a node: an insertion-ordered string-keyed mapping. -/
abbrev Dict := List (String × Node)

def Node.ty : Node → String
  | .mk t _ => t

def Node.children : Node → Option Dict
  | .mk _ c => c

/-- One GitHub tree entry, as consumed by `_build_hierarchical_tree`:
`item.get("path", "")` and `item.get("type", "blob")` read both keys with a
default, so both are optional. -/
structure TreeEntry where
  path : Option String
  type : Option String
deriving DecidableEq, Repr

/-- Python `t in ("tree", "dir")`, the type test of `_build_hierarchical_tree`. -/
def isTreeDir (t : String) : Bool := t = "tree" || t = "dir"

/-- The inner loop of `_build_hierarchical_tree` for one entry: walk the split
path, skip empty segments, write the entry type at the final segment, and
force a `"tree"` node with a children dict at every non-final segment
(upgrading a previously recorded non-tree node).  The list argument is
`item["path"].split("/")`; a segment is final iff it is the last element of
that list. -/
def insertParts (ty : String) : Dict → List String → Dict
  | d, [] => d
  | d, [p] => if p = "" then d else setAssoc d p (.mk ty none)
  | d, p :: rest =>
    if p = "" then insertParts ty d rest
    else
      let n0 : Node :=
        match getAssoc d p with
        | none => .mk "tree" (some [])
        | some n => if isTreeDir n.ty then n else .mk "tree" (some [])
      let cs : Dict := n0.children.getD []
      setAssoc d p (.mk n0.ty (some (insertParts ty cs rest)))

/-- Source `_build_hierarchical_tree`: fold every entry into the root dict. -/
def build_hierarchical_tree (flat_tree_list : List TreeEntry) : Dict :=
  flat_tree_list.foldl
    (fun d item => insertParts (item.type.getD "blob") d (pySplitStr (item.path.getD "") '/'))
    []

/-- Ordered insertion used to model Python `sorted` on the child names
(keys are compared; `sorted` is stable, and insertion goes before the first
element that is not smaller). -/
def insortPair (x : String × Node) : Dict → Dict
  | [] => [x]
  | y :: ys => if strLt y.1 x.1 then y :: insortPair x ys else x :: y :: ys

/-- Python `sorted(tree_node.keys())` together with the lookups it drives:
the dict sorted by key. -/
def sortPairs : Dict → Dict
  | [] => []
  | x :: xs => insortPair x (sortPairs xs)

theorem sizeOf_insortPair (x : String × Node) (l : Dict) :
    sizeOf (insortPair x l) = 1 + sizeOf x + sizeOf l := by
  induction l with
  | nil => simp [insortPair]
  | cons y ys ih =>
    simp only [insortPair]
    split
    · simp [ih]; omega
    · simp

theorem sizeOf_sortPairs (l : Dict) : sizeOf (sortPairs l) = sizeOf l := by
  induction l with
  | nil => rfl
  | cons x xs ih => simp [sortPairs, sizeOf_insortPair, ih]

theorem sizeOf_children_lt (nd : Node) (cs : Dict) (h : nd.children = some cs) :
    sizeOf cs < sizeOf nd := by
  cases nd with
  | mk t c =>
    simp [Node.children] at h
    subst h
    simp
    omega

mutual
/-- Source `_format_tree_recursively`: stop when the depth bound is reached,
otherwise walk the child names in sorted order. -/
def format_tree_recursively (tree_node : Dict) ( current_prefix : String)
    (current_depth : Int) (max_depth : Option Int) : List String :=
  if (match max_depth with | none => false | some m => current_depth ≥ m) then []
  else format_tree_items (sortPairs tree_node) current_prefix current_depth max_depth
termination_by (sizeOf tree_node, 1)
decreasing_by
  rw [Prod.lex_def]
  right
  exact ⟨by rw [sizeOf_sortPairs], by omega⟩

/-- The body of the `for i, name in enumerate(sorted_item_names)` loop of
`_format_tree_recursively`, over the key-sorted dict: emit the connector line
for each child (trailing `/` for `"tree"` nodes) and recurse into a `"tree"`
child that has a non-empty children dict. -/
def format_tree_items (l : Dict) ( current_prefix : String)
    (current_depth : Int) (max_depth : Option Int) : List String :=
  match l with
  | [] => []
  | (name, nd) :: rest =>
    let is_last_child := rest.isEmpty
    let connector := if is_last_child then "└── " else "├── "
    let is_directory := nd.ty = "tree"
    let line := current_prefix ++ connector ++ name ++ (if is_directory then "/" else "")
    let childLines :=
      if is_directory then
        match h : nd.children with
        | some cs =>
          if cs.isEmpty then []
          else
            format_tree_recursively cs
              ( current_prefix ++ (if is_last_child then "    " else "│   "))
              (current_depth + 1) max_depth
        | none => []
      else []
    line :: (childLines ++ format_tree_items rest current_prefix current_depth max_depth)
termination_by (sizeOf l, 0)
decreasing_by
  · rw [Prod.lex_def]
    left
    have := sizeOf_children_lt nd cs h
    simp
    omega
  · rw [Prod.lex_def]
    left
    simp
end

/-- Source `format_github_tree_structure`. -/
def format_github_tree_structure (flat_tree_list : List TreeEntry)
    (repo_name_with_owner : String) (max_depth : Option Int) : String :=
  if flat_tree_list.isEmpty then
    "Directory structure:\n└── " ++ repo_name_with_owner ++
      "/\n    (Repository is empty or tree data not available)"
  else
    let hierarchical_tree := build_hierarchical_tree flat_tree_list
    match max_depth with
    | some m =>
      if m < 0 then
        String.intercalate "\n" ["Directory structure:", "└── " ++ repo_name_with_owner ++ "/"]
      else
        String.intercalate "\n"
          (["Directory structure:", "└── " ++ repo_name_with_owner ++ "/"] ++
            format_tree_recursively hierarchical_tree "    " 0 (some (m - 1)))
    | none =>
      String.intercalate "\n"
        (["Directory structure:", "└── " ++ repo_name_with_owner ++ "/"] ++
          format_tree_recursively hierarchical_tree "    " 0 none)

/-! ## Repository processing module (`src/process_repo.py`) -/

def OUTPUT_DIR : String := "data"

def json_file_path : String := pyPathJoin "data" "processed_repos.json"

/-- Source `process_url`: cut the 19-character prefix `https://github.com/`,
join the remaining path components with hyphens, append the extension
(the source default is `".txt"`; the extension is passed explicitly here). -/
def process_url (repo_url : String) (extension : String) : String :=
  let path : List Char := repo_url.data.drop 19
  (⟨pyJoin '-' (pySplit '/' path)⟩ : String) ++ extension

/-- Source `process_github_url` (the source always calls `process_url` with
its default extension `".txt"`). -/
def process_github_url (repo_url : String) : String × String :=
  let output_filename := process_url repo_url ".txt"
  (output_filename, pyPathJoin OUTPUT_DIR output_filename)

/-- Source `is_valid_repo`: truthy and contains `"github.com"`. -/
def is_valid_repo (repo_url : String) : Bool :=
  repo_url ≠ "" && containsSub repo_url "github.com"

/-- A JSON artifact file on disk, as already parsed: either a string-to-string
object (all the code ever writes) or malformed content that makes
`json.load` raise. -/
inductive JsonData where
  | obj (entries : List (String × String))
  | malformed (err : String)
deriving DecidableEq

/-- The filesystem state the module touches: whether the `data/` directory
exists, the parsed content of `data/processed_repos.json` (`none` when the
file is absent; the values of that JSON object are always `null`, so only the
keys are kept), the raw text files, and the JSON artifact files. -/
structure FS where
  dirExists : Bool
  index : Option (List String)
  textFiles : List (String × String)
  jsonFiles : List (String × JsonData)
deriving DecidableEq

/-- One run of the external `gitingest` subprocess: its exit code, captured
stdout and stderr, and the content it wrote to the `-o` output file, if any. -/
structure ToolRun where
  returncode : Int
  stdout : String
  stderr : String
  written : Option String
deriving DecidableEq

/-- Source `is_processed_repo`: false when the output directory is missing;
otherwise the key (derived from the URL first when `is_raw_url`) is looked up
in the processed-repository JSON index, if that file exists. -/
def is_processed_repo (s : FS) (output_filename : String) (is_raw_url : Bool) : Bool :=
  if !s.dirExists then false
  else
    let fn := if is_raw_url then (process_github_url output_filename).1 else output_filename
    match s.index with
    | some data => decide (fn ∈ data)
    | none => false

/-- Source `save_to_json` in its filename-string form (the only form the
ingestion path uses): load the index if present, set the key to `None`,
rewrite the file.  Setting an existing key keeps the key list unchanged. -/
def save_to_json (input_data : String) (s : FS) : FS :=
  let data := s.index.getD []
  { s with index := some (if input_data ∈ data then data else data ++ [input_data]) }

/-- Source `write_to_file`: find `"Repository:"` in the captured stdout and,
when present, append a `--- Summary ---` heading plus the stripped tail to
the output file (creating it when absent, as open-for-append does). -/
def write_to_file (stdout_content : String) (output_path : String) (s : FS) : FS :=
  match findSubIdx ("Repository:").data stdout_content.data with
  | none => s
  | some i =>
    let summary_block := pyStrip ⟨stdout_content.data.drop i⟩
    let old := (getAssoc s.textFiles output_path).getD ""
    { s with
      textFiles :=
        setAssoc s.textFiles output_path (old ++ "--- Summary ---\n" ++ summary_block) }

/-- Removal of a file (`os.remove`). -/
def removeAssoc {β : Type} : List (String × β) → String → List (String × β)
  | [], _ => []
  | (k1, v1) :: rest, k => if k1 = k then rest else (k1, v1) :: removeAssoc rest k

/-- Source `run_gitingest`: ensure `data/` exists, run the subprocess (which
may write the output file), then on exit code 0 append the summary and record
the filename in the index, and on a non-zero exit code delete the
partially-written output file if it exists. -/
def run_gitingest (result : ToolRun) (output_path output_filename : String) (s : FS) :
    Bool × FS :=
  let s1 : FS := { s with dirExists := true }
  let s2 : FS :=
    match result.written with
    | some c => { s1 with textFiles := setAssoc s1.textFiles output_path c }
    | none => s1
  if result.returncode = 0 then
    (true, save_to_json output_filename (write_to_file result.stdout output_path s2))
  else
    (false,
      if hasAssoc s2.textFiles output_path then
        { s2 with textFiles := removeAssoc s2.textFiles output_path }
      else s2)

/-- A Python return value that is either a 2-tuple or a 3-tuple (the source
returns both shapes from the same functions). -/
inductive PyRet where
  | two (success : Bool) (msg : String)
  | three (success : Bool) (msg : String) (path : String)
deriving DecidableEq

/-- The message of the failure branch of `ingest_repo`: error_msg is a
local variable of `ingest_repo` itself (it is assigned in its `except`
handlers), so the line `return False, error_msg` reads it before any
assignment and raises `UnboundLocalError` inside the `try` block; the
generic `except Exception` handler catches it and formats it into this
string.  The exception text is produced by the interpreter and is version
dependent; modelled here is the CPython 3.11+ wording (older interpreters
phrase it as: local variable \x27error_msg\x27 referenced before
assignment — with the same handler prefix either way). -/
def unboundLocalMsg : String :=
  "An unexpected error occurred during processing: cannot access local variable \x27error_msg\x27 where it is not associated with a value"

/-- Source `ingest_repo`. -/
def ingest_repo (result : ToolRun) (repo_url : String) (s : FS) : PyRet × FS :=
  if !is_valid_repo repo_url then
    (.two false ("Invalid or non-GitHub URL provided: " ++ repo_url), s)
  else
    let output_filename := (process_github_url repo_url).1
    let output_path := (process_github_url repo_url).2
    if is_processed_repo s output_filename false then
      (.three false "Repository was processed previously." output_path, s)
    else
      match run_gitingest result output_path output_filename s with
      | (true, s1) => (.three true "Repository ingested successfully." output_path, s1)
      | (false, s1) => (.two false unboundLocalMsg, s1)

/-- The 48-equals-sign section marker of the digest format (source line 182). -/
def digestMarker : String := String.mk (List.replicate 48 '=')

/-- The `while True` readline loop of `_convert_ingested_to_json`, over the
lines of the digest file: accumulate content lines; at a marker line commit
the buffer under the current path (the first section under the synthetic key
`"directory_tree"`), read the next line as the new path (dropping a
`"File: "` prefix when present), skip one separator line, and reset the
buffer; at end of file commit the final buffer when the path is non-blank. -/
def convertLoop (lines : List String) (file_content file_path : String)
    (repo_dict : List (String × String)) : List (String × String) :=
  match lines with
  | [] =>
    if file_path ≠ "" ∧ pyStrip file_path ≠ "" then
      setAssoc repo_dict (pyStrip file_path) file_content
    else repo_dict
  | line :: rest =>
    if pyStartsWith line digestMarker then
      let committed := if file_path = "" then "directory_tree" else pyStrip file_path
      let repo_dict1 := setAssoc repo_dict committed file_content
      let next_line := rest.headD ""
      let file_path1 :=
        if pyStartsWith next_line "File: " then pyStrip ⟨next_line.data.drop 6⟩
        else pyStrip next_line
      convertLoop (rest.drop 2) "" file_path1 repo_dict1
    else convertLoop rest (file_content ++ line) file_path repo_dict
termination_by lines.length
decreasing_by
  · simp
    omega
  · simp

/-- Source `_convert_ingested_to_json`, as the mapping it builds from the
digest file content (the source additionally serializes this mapping to the
sibling `.json` file and returns it). -/
def convert_ingested_to_json (content : String) : List (String × String) :=
  convertLoop (pyLines content) "" "" []

/-- Source `get_a_file_content`.  The requested file is served from the
parsed `.json` artifact; `json.JSONDecodeError` and `IOError`/`OSError`
(including the `FileNotFoundError` when the artifact is absent) are caught
and returned as message strings, with the error detail abstracted. -/
def get_a_file_content (result : ToolRun) (repo_url repo_file_path : String) (s : FS) :
    String × FS :=
  if !is_valid_repo repo_url then
    ("Invalid or non-GitHub URL provided: " ++ repo_url, s)
  else
    let output_filename := (process_github_url repo_url).1
    let output_path := pySplitextBase (process_github_url repo_url).2 ++ ".json"
    if !is_processed_repo s output_filename false then
      ("Repository is being processed", (ingest_repo result repo_url s).2)
    else
      let fp1 :=
        if pyStartsWith repo_file_path "/" then (⟨repo_file_path.data.drop 1⟩ : String)
        else repo_file_path
      let fp2 := if pyEndsWith fp1 "/" then (⟨fp1.data.dropLast⟩ : String) else fp1
      match getAssoc s.jsonFiles output_path with
      | none => ("Error reading file: " ++ output_path, s)
      | some (.malformed e) => ("Error parsing JSON file: " ++ e, s)
      | some (.obj data) => ((getAssoc data fp2).getD "File not found in this repository.", s)

/-- A Python exception escaping `get_directory_structure`. -/
inductive PyExc where
  | valueError (msg : String)
  | fileNotFoundError (path : String)
deriving DecidableEq

/-- The `for line in file` loop of `get_directory_structure`: accumulate
lines until a line containing `"="` is seen. -/
def dirTreeScan (lines : List String) (dir_tree : String) : String :=
  match lines with
  | [] => dir_tree
  | line :: rest =>
    if containsChar line '=' then dir_tree else dirTreeScan rest (dir_tree ++ line)

/-- Source `get_directory_structure`: raises `ValueError` on an invalid URL
and `FileNotFoundError` when the digest file is absent (its `ingest_repo`
call result is ignored). -/
def get_directory_structure (result : ToolRun) (repo_url : String) (s : FS) :
    Except PyExc String × FS :=
  if !is_valid_repo repo_url then
    (.error (.valueError ("Invalid or non-GitHub URL provided: " ++ repo_url)), s)
  else
    let output_filename := (process_github_url repo_url).1
    let output_path := (process_github_url repo_url).2
    let s1 :=
      if !is_processed_repo s output_filename false then (ingest_repo result repo_url s).2
      else s
    match getAssoc s1.textFiles output_path with
    | none => (.error (.fileNotFoundError output_path), s1)
    | some content => (.ok (dirTreeScan (pyLines content) ""), s1)

/-! ## Helper lemmas -/

theorem pySplit_ne_nil (sep : Char) (l : List Char) : pySplit sep l ≠ [] := by
  cases l with
  | nil => simp [pySplit]
  | cons c cs =>
    simp only [pySplit]
    split
    · simp
    · split <;> simp

theorem pyJoin_pySplit (l : List Char) :
    pyJoin '-' (pySplit '/' l) = l.map (fun c => if c = '/' then '-' else c) := by
  induction l with
  | nil => simp [pySplit, pyJoin]
  | cons c cs ih =>
    simp only [pySplit, List.map_cons]
    by_cases hc : c = '/'
    · rw [if_pos hc, hc]
      obtain ⟨h, t, heq⟩ := List.exists_cons_of_ne_nil (pySplit_ne_nil '/' cs)
      rw [heq]
      rw [heq] at ih
      simp only [pyJoin, if_pos rfl]
      rw [← ih]
      rfl
    · rw [if_neg hc, if_neg hc]
      obtain ⟨h, t, heq⟩ := List.exists_cons_of_ne_nil (pySplit_ne_nil '/' cs)
      rw [heq]
      rw [heq] at ih
      cases t with
      | nil => simp only [pyJoin] at ih ⊢; rw [ih]
      | cons y ys =>
        simp only [pyJoin] at ih ⊢
        rw [← ih]
        rfl

/-! ## Claim C7: key derivation -/

/-- Spec-side key derivation, following the words of the spec for C7: remove
the first 19 characters (the prefix `https://github.com/`), replace every
`/` with `-`, and append the extension. -/
def specToKey (url : String) (extension : String) : String :=
  (⟨(url.data.drop 19).map fun c => if c = '/' then '-' else c⟩ : String) ++ extension

theorem process_url_eq_specToKey (url extension : String) :
    process_url url extension = specToKey url extension := by
  simp only [process_url, specToKey]
  rw [pyJoin_pySplit]

theorem process_github_url_no_leading_slash (url : String) :
    pyStartsWith (process_url url ".txt") "/" = false := by
  rw [process_url_eq_specToKey]
  unfold specToKey pyStartsWith
  rw [String.data_append]
  cases hd : (url.data.drop 19).map fun c => if c = '/' then '-' else c with
  | nil => rfl
  | cons x xs =>
    have hx : x ≠ '/' := by
      have hmem : x ∈ (url.data.drop 19).map fun c => if c = '/' then '-' else c := by
        rw [hd]; exact List.mem_cons_self x xs
      obtain ⟨c, _, hc⟩ := List.mem_map.mp hmem
      intro hcontra
      rw [hcontra] at hc
      by_cases h1 : c = '/' <;> simp [h1] at hc
    show charsLead ['/'] (x :: (xs ++ (".txt").data)) = false
    simp [charsLead]
    intro h
    exact absurd h.symm hx

/-- C7: for every URL the key derivation removes the first 19 characters,
replaces every `/` by `-`, appends the extension, and the full path joins the
result under the fixed `data` directory; in particular
`https://github.com/foo/bar` maps to `foo-bar.txt` and `data/foo-bar.txt`. -/
theorem C7_key_derivation :
    (∀ url extension, process_url url extension = specToKey url extension) ∧
    (∀ url, (process_github_url url).2 = "data/" ++ (process_github_url url).1) ∧
    process_github_url "https://github.com/foo/bar" = ("foo-bar.txt", "data/foo-bar.txt") := by
  refine ⟨process_url_eq_specToKey, fun url => ?_, by decide⟩
  show pyPathJoin OUTPUT_DIR (process_url url ".txt") = "data/" ++ process_url url ".txt"
  unfold pyPathJoin
  rw [process_github_url_no_leading_slash]
  simp only [Bool.false_eq_true, if_false, OUTPUT_DIR]
  rw [(by decide : ("data" : String) ++ "/" = "data/")]

/-! ## Claim C6: depth cutoff -/

theorem format_tree_recursively_cutoff (d : Dict) (pre : String) (cur : Int) (m : Int)
    (h : cur ≥ m) : format_tree_recursively d pre cur (some m) = [] := by
  rw [format_tree_recursively]
  simp [h]

/-- C6: for every non-empty entry list and display name, `maxDepth = 0`
renders exactly the header line and the root line, and any negative
`maxDepth` likewise returns after the root line only. -/
theorem C6_depth_cutoff (flat : List TreeEntry) (name : String) (m : Int)
    (hne : flat ≠ []) (hm : m < 0) :
    format_github_tree_structure flat name (some 0) =
      "Directory structure:\n└── " ++ name ++ "/" ∧
    format_github_tree_structure flat name (some m) =
      "Directory structure:\n└── " ++ name ++ "/" := by
  have hempty : flat.isEmpty = false := by
    cases flat with
    | nil => exact absurd rfl hne
    | cons a l => rfl
  constructor
  · unfold format_github_tree_structure
    rw [hempty]
    simp only [Bool.false_eq_true, if_false]
    have hz : ¬ ((0 : Int) < 0) := by omega
    rw [if_neg hz]
    rw [format_tree_recursively_cutoff _ _ _ _ (by omega)]
    simp [String.intercalate, String.intercalate.go, ← String.append_assoc]
  · unfold format_github_tree_structure
    rw [hempty]
    simp only [Bool.false_eq_true, if_false]
    rw [if_pos hm]
    simp [String.intercalate, String.intercalate.go, ← String.append_assoc]

/-- Witness for C6 at a concrete non-empty entry list and negative depth. -/
theorem C6_depth_cutoff_witness :
    format_github_tree_structure [⟨some "a", some "blob"⟩] "o/r" (some 0) =
      "Directory structure:\n└── " ++ "o/r" ++ "/" ∧
    format_github_tree_structure [⟨some "a", some "blob"⟩] "o/r" (some (-3)) =
      "Directory structure:\n└── " ++ "o/r" ++ "/" :=
  C6_depth_cutoff [⟨some "a", some "blob"⟩] "o/r" (-3) (by simp) (by omega)

/-! ## Claim C10: unprocessed repository file requests -/

/-- C10: for every valid URL whose key is not in the processed index,
`get_a_file_content` never returns file content: it runs `ingest_repo`
synchronously (the resulting state is exactly the post-ingestion state) and
returns the fixed string `"Repository is being processed"`, for every tool
outcome, including a fully successful ingestion. -/
theorem C10_processing_placeholder (result : ToolRun) (repo_url repo_file_path : String)
    (s : FS) (hv : is_valid_repo repo_url = true)
    (hp : is_processed_repo s (process_github_url repo_url).1 false = false) :
    get_a_file_content result repo_url repo_file_path s =
      ("Repository is being processed", (ingest_repo result repo_url s).2) := by
  simp [get_a_file_content, hv, hp]

/-- Witness for C10: a fresh state and a successful tool run still yield the
placeholder string. -/
theorem C10_processing_placeholder_witness :
    get_a_file_content ⟨0, "Repository: ok", "", some "content\n"⟩
        "https://github.com/foo/bar" "README.md" ⟨false, none, [], []⟩ =
      ("Repository is being processed",
        (ingest_repo ⟨0, "Repository: ok", "", some "content\n"⟩
          "https://github.com/foo/bar" ⟨false, none, [], []⟩).2) :=
  C10_processing_placeholder _ _ _ _ (by decide) (by decide)

/-! ## Claim C8: validation errors -/

/-- Counterexample for C8 as stated: on the invalid URL `"notaurl"`,
`get_directory_structure` does not return a structured message result: it
raises `ValueError` (modelled as `Except.error`), unlike `ingest_repo` and
`get_a_file_content`. -/
theorem C8_counterexample :
    get_directory_structure ⟨0, "", "", none⟩ "notaurl" ⟨false, none, [], []⟩ =
      (.error (.valueError "Invalid or non-GitHub URL provided: notaurl"),
        ⟨false, none, [], []⟩) := by
  rfl

/-- C8 amended: for every invalid URL, every state and every tool outcome,
each of the three operations detects the error before any I/O (the state is
returned unchanged and the tool is never consulted); `ingest_repo` and
`get_a_file_content` return the error as a message result, while
`get_directory_structure` raises `ValueError` carrying the same message. -/
theorem C8_validation_errors (result : ToolRun) (url fp : String) (s : FS)
    (hv : is_valid_repo url = false) :
    ingest_repo result url s =
      (.two false ("Invalid or non-GitHub URL provided: " ++ url), s) ∧
    get_a_file_content result url fp s =
      ("Invalid or non-GitHub URL provided: " ++ url, s) ∧
    get_directory_structure result url s =
      (.error (.valueError ("Invalid or non-GitHub URL provided: " ++ url)), s) := by
  refine ⟨?_, ?_, ?_⟩
  · unfold ingest_repo; rw [hv]; rfl
  · unfold get_a_file_content; rw [hv]; rfl
  · unfold get_directory_structure; rw [hv]; rfl

/-- Witness for C8 at the concrete invalid URL `"nope"`. -/
theorem C8_validation_errors_witness :
    ingest_repo ⟨0, "", "", none⟩ "nope" ⟨true, some ["k"], [], []⟩ =
      (.two false ("Invalid or non-GitHub URL provided: " ++ "nope"),
        ⟨true, some ["k"], [], []⟩) ∧
    get_a_file_content ⟨0, "", "", none⟩ "nope" "f.py" ⟨true, some ["k"], [], []⟩ =
      ("Invalid or non-GitHub URL provided: " ++ "nope", ⟨true, some ["k"], [], []⟩) ∧
    get_directory_structure ⟨0, "", "", none⟩ "nope" ⟨true, some ["k"], [], []⟩ =
      (.error (.valueError ("Invalid or non-GitHub URL provided: " ++ "nope")),
        ⟨true, some ["k"], [], []⟩) :=
  C8_validation_errors ⟨0, "", "", none⟩ "nope" "f.py" ⟨true, some ["k"], [], []⟩ (by decide)

/-! ## Claim C4: ingestion failure shape -/

/-- C4 (code bug): at a concrete failing tool run (exit code 1, stderr
`"boom"`, a partially-written output file), `ingest_repo` does delete the
partial file, but it returns the 2-tuple
`(False, "An unexpected error occurred during processing: cannot access
local variable ... where it is not associated with a value")` instead of the
declared 3-tuple `(false, message including truncated stderr, null)`: the
line `return False, error_msg` reads error_msg — a local of `ingest_repo`
that is assigned only in its `except` handlers — before any assignment, so
it raises `UnboundLocalError` (CPython 3.11+ wording modelled; older
interpreters word the exception differently), which the catch-all handler
converts into this unrelated message that does not contain the stderr
text. -/
theorem C4_failure_shape :
    ingest_repo ⟨1, "", "boom", some "partial"⟩ "https://github.com/foo/bar"
        ⟨false, none, [], []⟩ =
      (.two false unboundLocalMsg, ⟨true, none, [], []⟩) := by
  decide

/-! ## Claim C1: sequential ingestion idempotence -/

theorem write_to_file_dirExists (o p : String) (s : FS) :
    (write_to_file o p s).dirExists = s.dirExists := by
  unfold write_to_file
  split <;> rfl

theorem write_to_file_index (o p : String) (s : FS) :
    (write_to_file o p s).index = s.index := by
  unfold write_to_file
  split <;> rfl

theorem is_processed_repo_true_of (s : FS) (k : String) (hd : s.dirExists = true)
    (d : List String) (hi : s.index = some d) (hk : k ∈ d) :
    is_processed_repo s k false = true := by
  simp [is_processed_repo, hd, hi, hk]

theorem run_gitingest_success_state (t : ToolRun) (op fn : String) (s s1 : FS)
    (h : run_gitingest t op fn s = (true, s1)) :
    s1.dirExists = true ∧ ∃ d, s1.index = some d ∧ fn ∈ d := by
  cases hw : t.written with
  | none =>
    simp only [run_gitingest, hw] at h
    by_cases hrc : t.returncode = 0
    · rw [if_pos hrc] at h
      simp only [Prod.mk.injEq, true_and] at h
      subst h
      refine ⟨?_, ?_⟩
      · show (save_to_json fn _).dirExists = true
        unfold save_to_json
        rw [write_to_file_dirExists]
      · refine ⟨_, rfl, ?_⟩
        split
        · assumption
        · simp
    · rw [if_neg hrc] at h
      simp at h
  | some c =>
    simp only [run_gitingest, hw] at h
    by_cases hrc : t.returncode = 0
    · rw [if_pos hrc] at h
      simp only [Prod.mk.injEq, true_and] at h
      subst h
      refine ⟨?_, ?_⟩
      · show (save_to_json fn _).dirExists = true
        unfold save_to_json
        rw [write_to_file_dirExists]
      · refine ⟨_, rfl, ?_⟩
        split
        · assumption
        · simp
    · rw [if_neg hrc] at h
      simp at h

/-- C1: if a first `ingest_repo` call for a URL succeeds (returns the 3-tuple
`(true, message, path)`, with the digest file written and the derived
filename recorded in the state it returns), then a second sequential call
with the same URL returns exactly
`(false, "Repository was processed previously.", same path)` and returns the
state unchanged — in particular the digest file contents and the processed
index are untouched by the second call. -/
theorem C1_sequential_idempotence (t1 t2 : ToolRun) (repo_url : String) (s0 s1 : FS)
    (m p : String)
    (h : ingest_repo t1 repo_url s0 = (.three true m p, s1)) :
    ingest_repo t2 repo_url s1 =
      (.three false "Repository was processed previously." p, s1) := by
  simp only [ingest_repo] at h ⊢
  cases hv : is_valid_repo repo_url with
  | false =>
    rw [hv] at h
    simp at h
  | true =>
    rw [hv] at h
    rw [if_neg (by simp)] at h
    simp only [Bool.not_true, Bool.false_eq_true, if_false] at h ⊢
    cases hp0 : is_processed_repo s0 (process_github_url repo_url).1 false with
    | true =>
      rw [hp0] at h
      rw [if_pos rfl] at h
      simp at h
    | false =>
      rw [hp0] at h
      rw [if_neg (by simp)] at h
      rcases hrg : run_gitingest t1 (process_github_url repo_url).2
          (process_github_url repo_url).1 s0 with ⟨b, s1'⟩
      rw [hrg] at h
      cases b with
      | false => simp at h
      | true =>
        simp only [Prod.mk.injEq, PyRet.three.injEq, true_and] at h
        obtain ⟨⟨-, hpp⟩, hss⟩ := h
        subst hss
        obtain ⟨hdir, d, hidx, hmem⟩ := run_gitingest_success_state t1 _ _ s0 s1' hrg
        rw [is_processed_repo_true_of s1' _ hdir d hidx hmem]
        rw [if_pos rfl]
        rw [hpp]

/-- Witness for C1: a concrete successful first ingestion followed by a
second call. -/
theorem C1_sequential_idempotence_witness :
    ingest_repo ⟨0, "log Repository: foo/bar", "", some "digest\n"⟩
        "https://github.com/foo/bar" ⟨false, none, [], []⟩ =
      (.three true "Repository ingested successfully." "data/foo-bar.txt",
        ⟨true, some ["foo-bar.txt"],
          [("data/foo-bar.txt", "digest\n--- Summary ---\nRepository: foo/bar")], []⟩) ∧
    ingest_repo ⟨2, "", "later failure ignored", none⟩ "https://github.com/foo/bar"
        ⟨true, some ["foo-bar.txt"],
          [("data/foo-bar.txt", "digest\n--- Summary ---\nRepository: foo/bar")], []⟩ =
      (.three false "Repository was processed previously." "data/foo-bar.txt",
        ⟨true, some ["foo-bar.txt"],
          [("data/foo-bar.txt", "digest\n--- Summary ---\nRepository: foo/bar")], []⟩) := by
  constructor
  · decide
  · exact C1_sequential_idempotence ⟨0, "log Repository: foo/bar", "", some "digest\n"⟩
      ⟨2, "", "later failure ignored", none⟩ "https://github.com/foo/bar"
      ⟨false, none, [], []⟩
      ⟨true, some ["foo-bar.txt"],
        [("data/foo-bar.txt", "digest\n--- Summary ---\nRepository: foo/bar")], []⟩
      "Repository ingested successfully." "data/foo-bar.txt" (by decide)

/-! ## Claim C9: file lookup on a processed repository -/

/-- Spec-side trimming for C9, following the words of the spec: remove
exactly one leading `/` and exactly one trailing `/`. -/
def spec_trim_slash (p : String) : String :=
  ⟨if (if p.data.head? = some '/' then p.data.tail else p.data).getLast? = some '/' then
      (if p.data.head? = some '/' then p.data.tail else p.data).dropLast
    else if p.data.head? = some '/' then p.data.tail else p.data⟩

theorem charsLead_single (c : Char) (l : List Char) :
    charsLead [c] l = true ↔ l.head? = some c := by
  cases l with
  | nil => simp [charsLead]
  | cons x xs => simp [charsLead, eq_comm]

theorem pyStartsWith_slash (s : String) :
    pyStartsWith s "/" = true ↔ s.data.head? = some '/' := by
  unfold pyStartsWith
  exact charsLead_single '/' s.data

theorem pyEndsWith_slash (s : String) :
    pyEndsWith s "/" = true ↔ s.data.getLast? = some '/' := by
  unfold pyEndsWith
  rw [show ("/" : String).data.reverse = ['/'] from rfl]
  rw [charsLead_single '/' s.data.reverse]
  rw [List.head?_reverse]

/-- C9: on a valid URL for an already-processed repository,
`get_a_file_content` trims exactly one leading and one trailing `/` from the
requested path and serves the result from the persisted JSON mapping —
returning the stored content, or exactly
`"File not found in this repository."` when the trimmed path is absent —
while a malformed JSON artifact produces a parse-error message string
instead of an exception; the state is unchanged in all cases. -/
theorem C9_file_lookup (result : ToolRun) (url fp : String) (s : FS)
    (hv : is_valid_repo url = true)
    (hp : is_processed_repo s (process_github_url url).1 false = true) :
    (∀ data,
      getAssoc s.jsonFiles (pySplitextBase (process_github_url url).2 ++ ".json") =
          some (.obj data) →
      get_a_file_content result url fp s =
        ((getAssoc data (spec_trim_slash fp)).getD "File not found in this repository.",
          s)) ∧
    (∀ e,
      getAssoc s.jsonFiles (pySplitextBase (process_github_url url).2 ++ ".json") =
          some (.malformed e) →
      get_a_file_content result url fp s = ("Error parsing JSON file: " ++ e, s)) := by
  have htrim :
      (if pyEndsWith
            (if pyStartsWith fp "/" then (⟨fp.data.drop 1⟩ : String) else fp) "/" then
        (⟨(if pyStartsWith fp "/" then (⟨fp.data.drop 1⟩ : String) else fp).data.dropLast⟩ :
          String)
      else (if pyStartsWith fp "/" then (⟨fp.data.drop 1⟩ : String) else fp)) =
        spec_trim_slash fp := by
    unfold spec_trim_slash
    rw [show fp.data.tail = fp.data.drop 1 from (List.drop_one fp.data).symm]
    by_cases h1 : pyStartsWith fp "/" = true
    · rw [if_pos h1, if_pos ((pyStartsWith_slash fp).mp h1)]
      by_cases h2 : pyEndsWith (⟨fp.data.drop 1⟩ : String) "/" = true
      · rw [if_pos h2, if_pos ((pyEndsWith_slash (⟨fp.data.drop 1⟩ : String)).mp h2)]
      · rw [if_neg h2, if_neg (fun hc =>
          h2 ((pyEndsWith_slash (⟨fp.data.drop 1⟩ : String)).mpr hc))]
    · rw [if_neg h1, if_neg (fun hc => h1 ((pyStartsWith_slash fp).mpr hc))]
      by_cases h2 : pyEndsWith fp "/" = true
      · rw [if_pos h2, if_pos ((pyEndsWith_slash fp).mp h2)]
      · rw [if_neg h2, if_neg (fun hc => h2 ((pyEndsWith_slash fp).mpr hc))]
  constructor
  · intro data hjson
    simp only [get_a_file_content, hv, hp, Bool.not_true, Bool.false_eq_true, if_false, hjson]
    rw [htrim]
  · intro e hjson
    simp only [get_a_file_content, hv, hp, Bool.not_true, Bool.false_eq_true, if_false, hjson]

/-- Witness for C9: a concrete processed state serving `"/a/"` from the
stored mapping, a missing path, and a malformed artifact. -/
theorem C9_file_lookup_witness :
    get_a_file_content ⟨0, "", "", none⟩ "https://github.com/foo/bar" "/a/"
        ⟨true, some ["foo-bar.txt"], [],
          [("data/foo-bar.json", .obj [("a", "CONTENT")])]⟩ =
      ("CONTENT",
        ⟨true, some ["foo-bar.txt"], [],
          [("data/foo-bar.json", .obj [("a", "CONTENT")])]⟩) ∧
    get_a_file_content ⟨0, "", "", none⟩ "https://github.com/foo/bar" "missing.py"
        ⟨true, some ["foo-bar.txt"], [],
          [("data/foo-bar.json", .malformed "Expecting value")]⟩ =
      ("Error parsing JSON file: " ++ "Expecting value",
        ⟨true, some ["foo-bar.txt"], [],
          [("data/foo-bar.json", .malformed "Expecting value")]⟩) := by
  constructor
  · have h := (C9_file_lookup ⟨0, "", "", none⟩ "https://github.com/foo/bar" "/a/"
      ⟨true, some ["foo-bar.txt"], [], [("data/foo-bar.json", .obj [("a", "CONTENT")])]⟩
      (by decide) (by decide)).1 [("a", "CONTENT")] (by decide)
    rw [h]
    decide
  · exact (C9_file_lookup ⟨0, "", "", none⟩ "https://github.com/foo/bar" "missing.py"
      ⟨true, some ["foo-bar.txt"], [],
        [("data/foo-bar.json", .malformed "Expecting value")]⟩
      (by decide) (by decide)).2 "Expecting value" (by decide)

/-! ## Claim C5: digest parsing -/

/-- Concatenation of a list of strings. -/
def joinList : List String → String
  | [] => ""
  | l :: ls => l ++ joinList ls

/-- The file content whose readline sequence is the given logical lines, each
terminated by a newline. -/
def linesToStr (ls : List String) : String := joinList (ls.map fun l => l ++ "\n")

/-- A digest file consisting of a preamble block followed by two
marker-delimited file sections, in the on-disk shape described by the spec:
for each section a marker line, a `File: <path>` line, a blank separator
line, then the content block. -/
def mkTwoFileDigest (pre c1 c2 : List String) (p1 p2 : String) : String :=
  linesToStr (pre ++ [digestMarker, "File: " ++ p1, ""] ++ c1 ++
    [digestMarker, "File: " ++ p2, ""] ++ c2)

theorem charsLead_append_self (a b : List Char) : charsLead a (a ++ b) = true := by
  induction a with
  | nil => rfl
  | cons c cs ih => simp [charsLead, ih]

theorem pyLinesAux_line (l : List Char) (hl : '\n' ∉ l) (rest acc : List Char) :
    pyLinesAux (l ++ '\n' :: rest) acc =
      (acc.reverse ++ l ++ ['\n']) :: pyLinesAux rest [] := by
  induction l generalizing acc with
  | nil => simp [pyLinesAux]
  | cons c l' ih =>
    have hc : c ≠ '\n' := fun h => hl (h ▸ List.mem_cons_self c l')
    simp only [List.cons_append, pyLinesAux, if_neg hc, List.append_eq]
    rw [ih (fun h => hl (List.mem_cons_of_mem c h))]
    simp

theorem pyLines_linesToStr (ls : List String) (h : ∀ l ∈ ls, '\n' ∉ l.data) :
    pyLines (linesToStr ls) = ls.map fun l => l ++ "\n" := by
  induction ls with
  | nil => rfl
  | cons l ls' ih =>
    have hdata : (linesToStr (l :: ls')).data = l.data ++ '\n' :: (linesToStr ls').data := by
      show ((l ++ "\n") ++ linesToStr ls').data = _
      rw [String.data_append, String.data_append]
      simp
    unfold pyLines
    rw [hdata, pyLinesAux_line l.data (h l (List.mem_cons_self l ls')) _ []]
    rw [List.map_cons, List.map_cons]
    refine congrArg₂ List.cons ?_ ?_
    · exact congrArg String.mk (by simp)
    · exact ih fun x hx => h x (List.mem_cons_of_mem l hx)

theorem convertLoop_content (ls : List String)
    (hls : ∀ l ∈ ls, pyStartsWith l digestMarker = false) (rest : List String)
    (fc fp : String) (acc : List (String × String)) :
    convertLoop (ls ++ rest) fc fp acc = convertLoop rest (fc ++ joinList ls) fp acc := by
  induction ls generalizing fc with
  | nil => rw [List.nil_append, joinList, String.append_empty]
  | cons l ls' ih =>
    rw [List.cons_append, convertLoop]
    rw [hls l (List.mem_cons_self l ls')]
    rw [if_neg (by simp)]
    rw [ih (fun x hx => hls x (List.mem_cons_of_mem l hx)) (fc ++ l)]
    rw [joinList, ← String.append_assoc]

theorem charsLead_append_newline_false (a : List Char) (b : List Char)
    (ha : '\n' ∉ a) (h : charsLead a b = false) : charsLead a (b ++ ['\n']) = false := by
  induction a generalizing b with
  | nil => simp [charsLead] at h
  | cons x xs ih =>
    cases b with
    | nil =>
      have hx : x ≠ '\n' := fun hh => ha (hh ▸ List.mem_cons_self x xs)
      simp [charsLead, hx]
    | cons y ys =>
      by_cases hxy : x = y
      · subst hxy
        simp only [charsLead, List.cons_append] at h ⊢
        simp at h ⊢
        exact ih ys (fun hh => ha (List.mem_cons_of_mem x hh)) h
      · simp [charsLead, hxy]

theorem startsWith_digestMarker_self :
    pyStartsWith (digestMarker ++ "\n") digestMarker = true := by
  unfold pyStartsWith
  rw [String.data_append]
  exact charsLead_append_self _ _

theorem startsWith_file_header (p : String) :
    pyStartsWith (("File: " ++ p) ++ "\n") "File: " = true := by
  unfold pyStartsWith
  rw [String.data_append, String.data_append, List.append_assoc]
  exact charsLead_append_self _ _

theorem pyStrip_append_newline (l : List Char) :
    pyStrip ⟨l ++ ['\n']⟩ = pyStrip ⟨l⟩ := by
  unfold pyStrip
  refine congrArg String.mk ?_
  show (((l ++ ['\n']).dropWhile Char.isWhitespace).reverse.dropWhile
      Char.isWhitespace).reverse =
    ((l.dropWhile Char.isWhitespace).reverse.dropWhile Char.isWhitespace).reverse
  rw [List.dropWhile_append]
  by_cases he : (l.dropWhile Char.isWhitespace).isEmpty = true
  · rw [if_pos he]
    rw [List.isEmpty_iff] at he
    rw [he]
    rfl
  · rw [if_neg he]
    rw [List.reverse_append]
    show ((('\n' :: (l.dropWhile Char.isWhitespace).reverse).dropWhile
        Char.isWhitespace)).reverse = _
    rw [List.dropWhile_cons_of_pos (by decide)]

/-- C5: parsing a digest file made of a preamble block followed by two
marker-delimited file sections yields an insertion-ordered mapping with
exactly three entries: the synthetic key `"directory_tree"` mapped to the
preamble text, and each `File: <path>` header path mapped to that section
content block.  The hypotheses say the digest is well formed: logical lines
contain no newline and no line of a content block starts with the marker;
the two paths are non-blank, stripped, distinct, and distinct from the
synthetic key. -/
theorem C5_digest_parse (pre c1 c2 : List String) (p1 p2 : String)
    (hpre : ∀ l ∈ pre, pyStartsWith l digestMarker = false ∧ '\n' ∉ l.data)
    (hc1 : ∀ l ∈ c1, pyStartsWith l digestMarker = false ∧ '\n' ∉ l.data)
    (hc2 : ∀ l ∈ c2, pyStartsWith l digestMarker = false ∧ '\n' ∉ l.data)
    (hp1 : '\n' ∉ p1.data) (hp2 : '\n' ∉ p2.data)
    (hp1s : pyStrip p1 = p1) (hp2s : pyStrip p2 = p2)
    (hp1ne : p1 ≠ "") (hp2ne : p2 ≠ "")
    (hp1dt : p1 ≠ "directory_tree") (hp2dt : p2 ≠ "directory_tree") (hne : p1 ≠ p2) :
    convert_ingested_to_json (mkTwoFileDigest pre c1 c2 p1 p2) =
      [("directory_tree", linesToStr pre), (p1, linesToStr c1), (p2, linesToStr c2)] := by
  have hnomk : ∀ (x : String), pyStartsWith x digestMarker = false →
      pyStartsWith (x ++ "\n") digestMarker = false := by
    intro x hx
    unfold pyStartsWith at hx ⊢
    rw [String.data_append]
    exact charsLead_append_newline_false _ _ (by decide) hx
  have hstep : ∀ (p : String), pyStrip p = p → ∀ (tail : List String) (fc fp : String)
      (acc : List (String × String)),
      convertLoop ((digestMarker ++ "\n") :: (("File: " ++ p) ++ "\n") :: "\n" ::
          tail) fc fp acc =
        convertLoop tail "" p
          (setAssoc acc (if fp = "" then "directory_tree" else pyStrip fp) fc) := by
    intro p hps tail fc fp acc
    have hdrop : pyStrip ⟨((("File: " ++ p) ++ "\n")).data.drop 6⟩ = p := by
      have h6 : ((("File: " ++ p) ++ "\n")).data.drop 6 = p.data ++ ['\n'] := by
        rw [String.data_append, String.data_append, List.append_assoc]
        exact List.drop_left' (by decide)
      rw [h6, pyStrip_append_newline]
      exact hps
    rw [convertLoop]
    rw [startsWith_digestMarker_self, if_pos rfl]
    simp only [List.headD_cons, startsWith_file_header, List.drop_succ_cons,
      List.drop_zero, hdrop]
    simp
  have hbig : ∀ l ∈ pre ++ [digestMarker, "File: " ++ p1, ""] ++ c1 ++
      [digestMarker, "File: " ++ p2, ""] ++ c2, '\n' ∉ l.data := by
    intro l hl
    simp only [List.mem_append, List.mem_cons, List.not_mem_nil, or_false] at hl
    rcases hl with ((((hl | hl | hl | hl) | hl) | hl | hl | hl) | hl)
    · exact (hpre l hl).2
    · rw [hl]; decide
    · rw [hl, String.data_append]
      intro hmem
      rcases List.mem_append.mp hmem with hm | hm
      · revert hm; decide
      · exact hp1 hm
    · rw [hl]; decide
    · exact (hc1 l hl).2
    · rw [hl]; decide
    · rw [hl, String.data_append]
      intro hmem
      rcases List.mem_append.mp hmem with hm | hm
      · revert hm; decide
      · exact hp2 hm
    · rw [hl]; decide
    · exact (hc2 l hl).2
  have hpre' : ∀ l ∈ pre.map (fun l => l ++ "\n"),
      pyStartsWith l digestMarker = false := by
    intro l hl
    obtain ⟨x, hx, rfl⟩ := List.mem_map.mp hl
    exact hnomk x (hpre x hx).1
  have hc1' : ∀ l ∈ c1.map (fun l => l ++ "\n"),
      pyStartsWith l digestMarker = false := by
    intro l hl
    obtain ⟨x, hx, rfl⟩ := List.mem_map.mp hl
    exact hnomk x (hc1 x hx).1
  have hc2' : ∀ l ∈ c2.map (fun l => l ++ "\n"),
      pyStartsWith l digestMarker = false := by
    intro l hl
    obtain ⟨x, hx, rfl⟩ := List.mem_map.mp hl
    exact hnomk x (hc2 x hx).1
  unfold convert_ingested_to_json mkTwoFileDigest
  rw [pyLines_linesToStr _ hbig]
  simp only [List.map_append, List.map_cons, List.map_nil, List.append_assoc,
    List.cons_append, List.nil_append]
  rw [convertLoop_content _ hpre', String.empty_append]
  rw [hstep p1 hp1s]
  rw [convertLoop_content _ hc1', String.empty_append]
  rw [hstep p2 hp2s]
  rw [← List.append_nil (c2.map fun l => l ++ "\n")]
  rw [convertLoop_content _ hc2', String.empty_append]
  rw [convertLoop]
  rw [if_pos ⟨hp2ne, by rw [hp2s]; exact hp2ne⟩]
  rw [if_pos rfl]
  rw [if_neg hp1ne]
  rw [hp1s, hp2s]
  have e1 : ("directory_tree" = p1) = False := eq_false fun h => hp1dt h.symm
  have e2 : ("directory_tree" = p2) = False := eq_false fun h => hp2dt h.symm
  have e3 : (p1 = p2) = False := eq_false hne
  simp only [setAssoc, e1, e2, e3, if_false, String.empty_append]
  rfl

/-- Witness for C5 at a concrete two-section digest. -/
theorem C5_digest_parse_witness :
    convert_ingested_to_json
        (mkTwoFileDigest ["tree line"] ["print(1)"] ["hello"] "a.py" "b.md") =
      [("directory_tree", linesToStr ["tree line"]), ("a.py", linesToStr ["print(1)"]),
        ("b.md", linesToStr ["hello"])] :=
  C5_digest_parse ["tree line"] ["print(1)"] ["hello"] "a.py" "b.md"
    (by decide) (by decide) (by decide) (by decide) (by decide) (by decide) (by decide)
    (by decide) (by decide) (by decide) (by decide) (by decide)

/-! ## Claim C3: tree kind on path conflicts -/

/-- Prefix test on segment lists: does the second list start with the first? -/
def isHeadSeg : List String → List String → Bool
  | [], _ => true
  | _ :: _, [] => false
  | a :: as, b :: bs => a = b && isHeadSeg as bs

/-- The split path of an entry, as the builder computes it. -/
def entrySegs (e : TreeEntry) : List String := pySplitStr (e.path.getD "") '/'

/-- Entry type as the builder reads it is one of the two GitHub tree entry
types of the data model. -/
def entryTypeOK (e : TreeEntry) : Bool :=
  e.type.getD "blob" = "blob" || e.type.getD "blob" = "tree"

/-- A well-formed path: at least one segment, and no empty segment. -/
def entryClean (e : TreeEntry) : Bool :=
  !(entrySegs e).isEmpty && (entrySegs e).all fun p => p ≠ ""

mutual
/-- Invariant of trees built from well-typed entries: every node type is
`"blob"` or `"tree"`, and a node carrying a children dict is a `"tree"`. -/
def goodN : Node → Bool
  | .mk ty none => ty = "blob" || ty = "tree"
  | .mk ty (some cs) => ty = "tree" && goodD cs

def goodD : Dict → Bool
  | [] => true
  | (_, n) :: rest => goodN n && goodD rest
end

/-- Walk a chain of name segments through nested children dicts. -/
def lookupChain : Dict → List String → Option Node
  | _, [] => none
  | d, [p] => getAssoc d p
  | d, p :: rest =>
    match getAssoc d p with
    | some n => lookupChain (n.children.getD []) rest
    | none => none

/-- The chain ends at a `"tree"` node that has a children dict. -/
def treeAt (d : Dict) (c : List String) : Prop :=
  ∃ cs, lookupChain d c = some (Node.mk "tree" (some cs))

theorem getAssoc_setAssoc_self {β : Type} (d : List (String × β)) (k : String) (v : β) :
    getAssoc (setAssoc d k v) k = some v := by
  induction d with
  | nil => simp [setAssoc, getAssoc]
  | cons x rest ih =>
    obtain ⟨k1, v1⟩ := x
    by_cases h : k1 = k
    · simp [setAssoc, h, getAssoc]
    · simp only [setAssoc, if_neg h, getAssoc]
      rw [if_neg (fun hh => h hh.symm)]
      exact ih

theorem getAssoc_setAssoc_ne {β : Type} (d : List (String × β)) (k q : String) (v : β)
    (hqk : q ≠ k) : getAssoc (setAssoc d k v) q = getAssoc d q := by
  induction d with
  | nil => simp [setAssoc, getAssoc, hqk]
  | cons x rest ih =>
    obtain ⟨k1, v1⟩ := x
    by_cases h : k1 = k
    · subst h
      simp [setAssoc, getAssoc, hqk]
    · simp only [setAssoc, if_neg h, getAssoc]
      by_cases h2 : q = k1
      · simp [h2]
      · rw [if_neg h2, if_neg h2]
        exact ih

theorem goodN_mk_some (ty : String) (cs : Dict) :
    goodN (.mk ty (some cs)) = true ↔ ty = "tree" ∧ goodD cs = true := by
  simp [goodN]

theorem goodN_mk_none (ty : String) :
    goodN (.mk ty none) = true ↔ ty = "blob" ∨ ty = "tree" := by
  simp [goodN]

theorem goodN_of_getAssoc (d : Dict) (k : String) (n : Node) (hd : goodD d = true)
    (h : getAssoc d k = some n) : goodN n = true := by
  induction d with
  | nil => simp [getAssoc] at h
  | cons x rest ih =>
    obtain ⟨k1, v1⟩ := x
    rw [goodD, Bool.and_eq_true] at hd
    rw [getAssoc] at h
    by_cases hk : k = k1
    · rw [if_pos hk] at h
      cases h
      exact hd.1
    · rw [if_neg hk] at h
      exact ih hd.2 h

theorem goodD_setAssoc (d : Dict) (k : String) (v : Node) (hd : goodD d = true)
    (hv : goodN v = true) : goodD (setAssoc d k v) = true := by
  induction d with
  | nil => simp [setAssoc, goodD, hv]
  | cons x rest ih =>
    obtain ⟨k1, v1⟩ := x
    rw [goodD, Bool.and_eq_true] at hd
    by_cases h : k1 = k
    · simp [setAssoc, h, goodD, hv, hd.2]
    · simp only [setAssoc, if_neg h, goodD, Bool.and_eq_true]
      exact ⟨hd.1, ih hd.2⟩

/-- The node the non-final-segment branch of the builder puts at a key is
always a `"tree"` node over a good children dict, when the dict is good. -/
theorem insert_n0_spec (d : Dict) (p : String) (hd : goodD d = true) :
    (match getAssoc d p with
      | none => Node.mk "tree" (some [])
      | some n => if isTreeDir n.ty then n else Node.mk "tree" (some [])).ty = "tree" ∧
    goodD ((match getAssoc d p with
      | none => Node.mk "tree" (some [])
      | some n => if isTreeDir n.ty then n else Node.mk "tree" (some [])).children.getD [])
      = true := by
  cases hg : getAssoc d p with
  | none => exact ⟨rfl, rfl⟩
  | some n =>
    have hn := goodN_of_getAssoc d p n hd hg
    cases n with
    | mk ty oc =>
      cases oc with
      | none =>
        rw [goodN_mk_none] at hn
        rcases hn with hn | hn
        · subst hn
          refine ⟨by simp [isTreeDir, Node.ty], ?_⟩
          simp [isTreeDir, Node.ty, Node.children]
          rfl
        · subst hn
          refine ⟨by simp [isTreeDir, Node.ty], ?_⟩
          simp [isTreeDir, Node.ty, Node.children]
          rfl
      | some cs =>
        rw [goodN_mk_some] at hn
        obtain ⟨hty, hcs⟩ := hn
        subst hty
        simp [isTreeDir, Node.ty, Node.children, hcs]

theorem goodD_insertParts (ty : String) (hty : (ty = "blob" || ty = "tree") = true) :
    ∀ (parts : List String) (d : Dict), goodD d = true →
      goodD (insertParts ty d parts) = true
  | [], _, hd => hd
  | [p], d, hd => by
    simp only [insertParts]
    split
    · exact hd
    · refine goodD_setAssoc d p _ hd ?_
      rw [goodN_mk_none]
      simpa using hty
  | p :: q :: rest, d, hd => by
    simp only [insertParts]
    split
    · exact goodD_insertParts ty hty (q :: rest) d hd
    · obtain ⟨h1, h2⟩ := insert_n0_spec d p hd
      refine goodD_setAssoc d p _ hd ?_
      rw [goodN_mk_some]
      exact ⟨h1, goodD_insertParts ty hty (q :: rest) _ h2⟩

theorem lookupChain_nil (c : List String) (hc : c ≠ []) : lookupChain [] c = none := by
  cases c with
  | nil => exact absurd rfl hc
  | cons p rest => cases rest <;> simp [lookupChain, getAssoc]

theorem treeAt_nil_elim {d : Dict} (h : treeAt d []) : False := by
  obtain ⟨cs, hcs⟩ := h
  simp [lookupChain] at hcs

/-- One non-final step of the builder, in a good dict: the key gets a
`"tree"` node whose children are the previous children (empty when the key
was absent or held a non-tree leaf) updated by the recursive insertion. -/
theorem insertParts_cons_step (ty p : String) (hp : p ≠ "") (r : String)
    (rs : List String) (d : Dict) (hd : goodD d = true) :
    ∃ cs0, goodD cs0 = true ∧
      insertParts ty d (p :: r :: rs) =
        setAssoc d p (Node.mk "tree" (some (insertParts ty cs0 (r :: rs)))) ∧
      ∀ ncs, getAssoc d p = some (Node.mk "tree" (some ncs)) → ncs = cs0 := by
  simp only [insertParts, if_neg hp]
  cases hg : getAssoc d p with
  | none =>
    refine ⟨[], rfl, rfl, ?_⟩
    intro ncs h
    cases h
  | some n =>
    have hgn := goodN_of_getAssoc d p n hd hg
    cases n with
    | mk nty noc =>
      cases noc with
      | none =>
        rw [goodN_mk_none] at hgn
        rcases hgn with rfl | rfl
        · refine ⟨[], rfl, rfl, ?_⟩
          intro ncs h
          simp at h
        · refine ⟨[], rfl, rfl, ?_⟩
          intro ncs h
          simp at h
      | some ncs =>
        rw [goodN_mk_some] at hgn
        obtain ⟨rfl, hncs⟩ := hgn
        refine ⟨ncs, hncs, rfl, ?_⟩
        intro ncs' h
        simp at h
        exact h.symm

/-- Inserting an entry whose path properly extends the chain `c` makes the
node at `c` a `"tree"` node with a children dict, whatever was there
before (in a good dict). -/
theorem insertParts_establishes (ty : String) :
    ∀ (c parts : List String) (d : Dict), goodD d = true →
      isHeadSeg c parts = true → c ≠ [] → c ≠ parts →
      (parts.all fun p => p ≠ "") = true →
      treeAt (insertParts ty d parts) c
  | [], _, _, _, _, hcne, _, _ => absurd rfl hcne
  | [p], parts, d, hd, hpref, _, hproper, hclean => by
    cases parts with
    | nil => simp [isHeadSeg] at hpref
    | cons q rest =>
      have hpq : p = q := by
        simp [isHeadSeg] at hpref
        exact hpref
      subst hpq
      cases rest with
      | nil => exact absurd rfl hproper
      | cons r rs =>
        have hp : p ≠ "" := by
          simp only [List.all_cons, Bool.and_eq_true, decide_eq_true_eq] at hclean
          exact hclean.1
        obtain ⟨cs0, -, heq, -⟩ := insertParts_cons_step ty p hp r rs d hd
        rw [heq]
        refine ⟨insertParts ty cs0 (r :: rs), ?_⟩
        simp only [lookupChain]
        rw [getAssoc_setAssoc_self]
  | p :: c1 :: crest, parts, d, hd, hpref, _, hproper, hclean => by
    cases parts with
    | nil => simp [isHeadSeg] at hpref
    | cons q rest =>
      have hpq : p = q ∧ isHeadSeg (c1 :: crest) rest = true := by
        simpa [isHeadSeg] using hpref
      obtain ⟨rfl, hpref'⟩ := hpq
      cases rest with
      | nil => simp [isHeadSeg] at hpref'
      | cons r rs =>
        have hp : p ≠ "" := by
          simp only [List.all_cons, Bool.and_eq_true, decide_eq_true_eq] at hclean
          exact hclean.1
        have hclean' : ((r :: rs).all fun x => x ≠ "") = true := by
          simp only [List.all_cons, Bool.and_eq_true] at hclean ⊢
          exact hclean.2
        have hproper' : c1 :: crest ≠ r :: rs := fun h => hproper (by rw [h])
        obtain ⟨cs0, hg0, heq, -⟩ := insertParts_cons_step ty p hp r rs d hd
        rw [heq]
        obtain ⟨cs', hcs'⟩ :=
          insertParts_establishes ty (c1 :: crest) (r :: rs) cs0 hg0 hpref'
            (by simp) hproper' hclean'
        refine ⟨cs', ?_⟩
        simp only [lookupChain]
        rw [getAssoc_setAssoc_self]
        exact hcs'

/-- Inserting an entry whose path is not a prefix of the chain `c` keeps a
`"tree"`-with-children node at `c` (in a good dict). -/
theorem insertParts_preserves (ty : String) :
    ∀ (parts : List String) (d : Dict) (c : List String), goodD d = true →
      treeAt d c → isHeadSeg parts c = false →
      (parts.all fun p => p ≠ "") = true →
      treeAt (insertParts ty d parts) c
  | [], _, c, _, _, hnp, _ => by simp [isHeadSeg] at hnp
  | [q], d, c, hd, hT, hnp, hclean => by
    have hq : q ≠ "" := by
      simp only [List.all_cons, Bool.and_eq_true, decide_eq_true_eq] at hclean
      exact hclean.1
    cases c with
    | nil => exact absurd hT treeAt_nil_elim
    | cons p c' =>
      have hqp : p ≠ q := by
        simp [isHeadSeg] at hnp
        exact fun h => hnp h.symm
      obtain ⟨cs0, hcs0⟩ := hT
      refine ⟨cs0, ?_⟩
      simp only [insertParts, if_neg hq]
      cases c' with
      | nil =>
        simp only [lookupChain] at hcs0 ⊢
        rw [getAssoc_setAssoc_ne _ _ _ _ hqp]
        exact hcs0
      | cons c2 cr =>
        simp only [lookupChain] at hcs0 ⊢
        rw [getAssoc_setAssoc_ne _ _ _ _ hqp]
        exact hcs0
  | q :: q2 :: qrest, d, c, hd, hT, hnp, hclean => by
    have hq : q ≠ "" := by
      simp only [List.all_cons, Bool.and_eq_true, decide_eq_true_eq] at hclean
      exact hclean.1
    have hclean' : ((q2 :: qrest).all fun x => x ≠ "") = true := by
      simp only [List.all_cons, Bool.and_eq_true] at hclean ⊢
      exact hclean.2
    cases c with
    | nil => exact absurd hT treeAt_nil_elim
    | cons p c' =>
      by_cases hpq : p = q
      case neg =>
        obtain ⟨cs0, hcs0⟩ := hT
        refine ⟨cs0, ?_⟩
        simp only [insertParts, if_neg hq]
        cases c' with
        | nil =>
          simp only [lookupChain] at hcs0 ⊢
          rw [getAssoc_setAssoc_ne _ _ _ _ hpq]
          exact hcs0
        | cons c2 cr =>
          simp only [lookupChain] at hcs0 ⊢
          rw [getAssoc_setAssoc_ne _ _ _ _ hpq]
          exact hcs0
      case pos =>
        subst hpq
        have hnp' : isHeadSeg (q2 :: qrest) c' = false := by
          simpa [isHeadSeg] using hnp
        obtain ⟨cs1, hg1, heq, hrel⟩ := insertParts_cons_step ty p hq q2 qrest d hd
        rw [heq]
        cases c' with
        | nil =>
          refine ⟨insertParts ty cs1 (q2 :: qrest), ?_⟩
          simp only [lookupChain]
          rw [getAssoc_setAssoc_self]
        | cons c2 cr =>
          obtain ⟨cs0, hcs0⟩ := hT
          simp only [lookupChain] at hcs0
          cases hg : getAssoc d p with
          | none => rw [hg] at hcs0; simp at hcs0
          | some n =>
            rw [hg] at hcs0
            have hgn := goodN_of_getAssoc d p n hd hg
            cases n with
            | mk nty noc =>
              cases noc with
              | none =>
                have hcs0' : lookupChain [] (c2 :: cr) =
                    some (Node.mk "tree" (some cs0)) := hcs0
                rw [lookupChain_nil _ (by simp)] at hcs0'
                cases hcs0'
              | some ncs =>
                rw [goodN_mk_some] at hgn
                obtain ⟨rfl, hncs⟩ := hgn
                have hcs0' : lookupChain ncs (c2 :: cr) =
                    some (Node.mk "tree" (some cs0)) := hcs0
                have hc : ncs = cs1 := hrel ncs hg
                subst hc
                obtain ⟨cs', hcs'⟩ :=
                  insertParts_preserves ty (q2 :: qrest) ncs (c2 :: cr) hncs
                    ⟨cs0, hcs0'⟩ hnp' hclean'
                refine ⟨cs', ?_⟩
                simp only [lookupChain]
                rw [getAssoc_setAssoc_self]
                exact hcs'

theorem goodD_build_fold (l : List TreeEntry) (d : Dict) (hd : goodD d = true)
    (h : ∀ x ∈ l, entryTypeOK x = true) :
    goodD (l.foldl (fun d item =>
      insertParts (item.type.getD "blob") d (pySplitStr (item.path.getD "") '/')) d)
      = true := by
  induction l generalizing d with
  | nil => exact hd
  | cons e l' ih =>
    rw [List.foldl_cons]
    exact ih _ (goodD_insertParts _ (h e (List.mem_cons_self e l')) _ d hd)
      fun x hx => h x (List.mem_cons_of_mem e hx)

theorem treeAt_build_fold (l : List TreeEntry) (d : Dict) (c : List String)
    (hd : goodD d = true) (hT : treeAt d c)
    (h : ∀ x ∈ l, entryTypeOK x = true ∧ entryClean x = true ∧
      isHeadSeg (entrySegs x) c = false) :
    treeAt (l.foldl (fun d item =>
      insertParts (item.type.getD "blob") d (pySplitStr (item.path.getD "") '/')) d) c := by
  induction l generalizing d with
  | nil => exact hT
  | cons e l' ih =>
    rw [List.foldl_cons]
    obtain ⟨hty, hcl, hnp⟩ := h e (List.mem_cons_self e l')
    have hall : ((pySplitStr (e.path.getD "") '/').all fun p => p ≠ "") = true := by
      unfold entryClean at hcl
      rw [Bool.and_eq_true] at hcl
      exact hcl.2
    refine ih _ (goodD_insertParts _ hty _ d hd) ?_
      fun x hx => h x (List.mem_cons_of_mem e hx)
    exact insertParts_preserves _ _ d c hd hT hnp hall

/-- C3 amended: in a list of well-formed entries (non-empty slash paths with
no empty segment, types among `blob`/`tree`), any chain of segments that
occurs as a non-final (proper) prefix of some entry path ends up in the built
tree as a `"tree"` node with a children mapping, provided the split path of
no later entry is a segment prefix of that chain — neither the chain itself
nor a shorter initial chain: a later write anywhere along the chain
overwrites that node wholesale, destroying the subtree below it, which is
what the counterexample exploits. -/
theorem C3_nonfinal_segment_is_tree (preL postL : List TreeEntry) (e : TreeEntry)
    (c : List String)
    (htypes : ∀ x ∈ preL ++ e :: postL, entryTypeOK x = true)
    (hclean : ∀ x ∈ preL ++ e :: postL, entryClean x = true)
    (hcne : c ≠ [])
    (hpref : isHeadSeg c (entrySegs e) = true)
    (hproper : c ≠ entrySegs e)
    (hpost : ∀ x ∈ postL, isHeadSeg (entrySegs x) c = false) :
    treeAt (build_hierarchical_tree (preL ++ e :: postL)) c := by
  unfold build_hierarchical_tree
  rw [List.foldl_append, List.foldl_cons]
  have hmem_e : e ∈ preL ++ e :: postL := by simp
  have hgood_pre : goodD (preL.foldl (fun d item =>
      insertParts (item.type.getD "blob") d (pySplitStr (item.path.getD "") '/')) [])
      = true :=
    goodD_build_fold preL [] rfl fun x hx => htypes x (by simp [hx])
  have hall_e : ((pySplitStr (e.path.getD "") '/').all fun p => p ≠ "") = true := by
    have := hclean e hmem_e
    unfold entryClean at this
    rw [Bool.and_eq_true] at this
    exact this.2
  refine treeAt_build_fold postL _ c
    (goodD_insertParts _ (htypes e hmem_e) _ _ hgood_pre) ?_
    fun x hx => ⟨htypes x (by simp [hx]), hclean x (by simp [hx]), hpost x hx⟩
  exact insertParts_establishes _ c _ _ hgood_pre hpref hcne hproper hall_e

/-- Witness for C3: the particular instance named by the claim — entries
`[{path "x", type blob}, {path "x/y", type blob}]` yield `x` as a tree
containing the child `y`. -/
theorem C3_nonfinal_segment_is_tree_witness :
    treeAt (build_hierarchical_tree
      [⟨some "x", some "blob"⟩, ⟨some "x/y", some "blob"⟩]) ["x"] :=
  C3_nonfinal_segment_is_tree [⟨some "x", some "blob"⟩] []
    ⟨some "x/y", some "blob"⟩ ["x"]
    (by decide) (by decide) (by decide) (by decide) (by decide) (by decide)

/-- Counterexample for C3 as stated: with the blob entry for `x` appearing
after `x/y`, the segment `x` occurs as a non-final segment of the path
`x/y` yet ends up in the built tree as a childless `"blob"` node — the later
full-path blob write wins, so `"tree"` does not win regardless of order. -/
theorem C3_counterexample :
    build_hierarchical_tree [⟨some "x/y", some "blob"⟩, ⟨some "x", some "blob"⟩] =
      [("x", Node.mk "blob" none)] := by
  rfl

/-! ## Claim C2: permutation invariance of rendering

The canonical form of a dict recursively sorts every children dict by key;
two dicts with the same canonical form render identically, and on entry
lists with pairwise non-nested well-formed paths the builder produces
permutation-independent canonical forms. -/

theorem charsLt_irrefl (a : List Char) : charsLt a a = false := by
  induction a with
  | nil => rfl
  | cons c cs ih => simp [charsLt, charLt, ih]

theorem charsLt_asymm (a b : List Char) (h : charsLt a b = true) :
    charsLt b a = false := by
  induction a generalizing b with
  | nil =>
    cases b with
    | nil => simp [charsLt] at h
    | cons y ys => rfl
  | cons x xs ih =>
    cases b with
    | nil => simp [charsLt] at h
    | cons y ys =>
      simp only [charsLt, Bool.or_eq_true, Bool.and_eq_true, decide_eq_true_eq] at h ⊢
      rcases h with h | ⟨rfl, h⟩
      · simp only [charLt, decide_eq_true_eq] at h
        have h1 : charLt y x = false := by
          simp only [charLt, decide_eq_false_iff_not]
          omega
        have h2 : y ≠ x := by
          intro hh
          subst hh
          omega
        simp [h1, h2]
      · simp [charLt, Nat.lt_irrefl, ih ys h]

theorem charsLt_total (a b : List Char) :
    charsLt a b = true ∨ charsLt b a = true ∨ a = b := by
  induction a generalizing b with
  | nil => cases b <;> simp [charsLt]
  | cons x xs ih =>
    cases b with
    | nil => simp [charsLt]
    | cons y ys =>
      rcases Nat.lt_trichotomy x.toNat y.toNat with h | h | h
      · left; simp [charsLt, charLt, h]
      · have hxy : x = y := by
          unfold Char.toNat at h
          exact Char.ext (by exact UInt32.toNat.inj h)
        subst hxy
        rcases ih ys with h1 | h1 | h1
        · left; simp [charsLt, h1]
        · right; left; simp [charsLt, h1]
        · right; right; simp [h1]
      · right; left; simp [charsLt, charLt, h]

theorem strLt_irrefl (a : String) : strLt a a = false := charsLt_irrefl a.data

theorem strLt_asymm (a b : String) (h : strLt a b = true) : strLt b a = false :=
  charsLt_asymm a.data b.data h

theorem strLt_total (a b : String) :
    strLt a b = true ∨ strLt b a = true ∨ a = b := by
  rcases charsLt_total a.data b.data with h | h | h
  · exact Or.inl h
  · exact Or.inr (Or.inl h)
  · exact Or.inr (Or.inr (congrArg String.mk h))

/-- Keys of an association list. -/
def keysOf {β : Type} (l : List (String × β)) : List String := l.map Prod.fst

mutual
/-- Key uniqueness at every level of a dict, the invariant the builder keeps
because a Python dict cannot hold a key twice. -/
def wfN : Node → Bool
  | .mk _ none => true
  | .mk _ (some cs) => wfD cs

def wfD : Dict → Bool
  | [] => true
  | (k, n) :: rest => !(hasAssoc rest k) && wfN n && wfD rest
end

mutual
/-- Canonical form of a node: children recursively sorted by key. -/
def canonNode : Node → Node
  | .mk ty none => .mk ty none
  | .mk ty (some cs) => .mk ty (some (sortPairs (canonPairs cs)))

/-- Canonical form of the values of a dict, keeping key order. -/
def canonPairs : Dict → Dict
  | [] => []
  | (k, n) :: rest => (k, canonNode n) :: canonPairs rest
end

/-- Canonical form of a dict: values canonicalized, keys sorted. -/
def canonDict (d : Dict) : Dict := sortPairs (canonPairs d)

/-- Sorted-insert-or-replace, the image of `setAssoc` on canonical dicts. -/
def setKeySorted : Dict → String → Node → Dict
  | [], p, v => [(p, v)]
  | (k, n) :: rest, p, v =>
    if p = k then (p, v) :: rest
    else if strLt p k then (p, v) :: (k, n) :: rest
    else (k, n) :: setKeySorted rest p v

/-- The builder insertion transported to canonical dicts. -/
def insC (ty : String) : Dict → List String → Dict
  | d, [] => d
  | d, [p] => if p = "" then d else setKeySorted d p (.mk ty none)
  | d, p :: rest =>
    if p = "" then insC ty d rest
    else
      let n0 : Node :=
        match getAssoc d p with
        | none => .mk "tree" (some [])
        | some n => if isTreeDir n.ty then n else .mk "tree" (some [])
      setKeySorted d p (.mk n0.ty (some (insC ty (n0.children.getD []) rest)))

theorem charsLt_trans (a : List Char) : ∀ b c : List Char,
    charsLt a b = true → charsLt b c = true → charsLt a c = true := by
  induction a with
  | nil =>
    intro b c hab hbc
    cases c with
    | nil =>
      cases b with
      | nil => simp [charsLt] at hab
      | cons y ys => simp [charsLt] at hbc
    | cons z zs => rfl
  | cons x xs ih =>
    intro b c hab hbc
    cases b with
    | nil => simp [charsLt] at hab
    | cons y ys =>
      cases c with
      | nil => simp [charsLt] at hbc
      | cons z zs =>
        simp only [charsLt, Bool.or_eq_true, Bool.and_eq_true, decide_eq_true_eq,
          charLt] at hab hbc ⊢
        rcases hab with hab | ⟨rfl, hab⟩
        · rcases hbc with hbc | ⟨rfl, hbc⟩
          · left; omega
          · left; exact hab
        · rcases hbc with hbc | ⟨rfl, hbc⟩
          · left; exact hbc
          · right; exact ⟨rfl, ih ys zs hab hbc⟩

theorem strLt_trans (a b c : String) (h1 : strLt a b = true) (h2 : strLt b c = true) :
    strLt a c = true := charsLt_trans a.data b.data c.data h1 h2

theorem insortPair_perm (x : String × Node) (l : Dict) : (insortPair x l).Perm (x :: l) := by
  induction l with
  | nil => exact List.Perm.refl _
  | cons y ys ih =>
    simp only [insortPair]
    split
    · exact (List.Perm.cons y ih).trans (List.Perm.swap x y ys)
    · exact List.Perm.refl _

theorem sortPairs_perm (l : Dict) : (sortPairs l).Perm l := by
  induction l with
  | nil => exact List.Perm.refl _
  | cons x xs ih => exact (insortPair_perm x (sortPairs xs)).trans (ih.cons x)

theorem getAssoc_eq_none_iff {β : Type} (l : List (String × β)) (k : String) :
    getAssoc l k = none ↔ k ∉ keysOf l := by
  induction l with
  | nil => simp [getAssoc, keysOf]
  | cons x rest ih =>
    obtain ⟨k1, v1⟩ := x
    by_cases h : k = k1
    · simp [getAssoc, keysOf, h]
    · simp only [getAssoc, if_neg h, keysOf, List.map_cons, List.mem_cons]
      rw [ih]
      unfold keysOf
      simp [h]

theorem mem_of_getAssoc_eq_some {β : Type} (l : List (String × β)) (k : String) (v : β)
    (h : getAssoc l k = some v) : (k, v) ∈ l := by
  induction l with
  | nil => simp [getAssoc] at h
  | cons x rest ih =>
    obtain ⟨k1, v1⟩ := x
    rw [getAssoc] at h
    by_cases hk : k = k1
    · rw [if_pos hk] at h
      cases h
      subst hk
      exact List.mem_cons_self _ _
    · rw [if_neg hk] at h
      exact List.mem_cons_of_mem _ (ih h)

theorem getAssoc_eq_some_of_mem {β : Type} (l : List (String × β)) (k : String) (v : β)
    (hn : (keysOf l).Nodup) (h : (k, v) ∈ l) : getAssoc l k = some v := by
  induction l with
  | nil => simp at h
  | cons x rest ih =>
    obtain ⟨k1, v1⟩ := x
    rw [keysOf, List.map_cons, List.nodup_cons] at hn
    rcases List.mem_cons.mp h with heq | hmem
    · cases heq
      simp [getAssoc]
    · have hk : k ≠ k1 := by
        intro hh
        subst hh
        exact hn.1 (List.mem_map.mpr ⟨(k, v), hmem, rfl⟩)
      rw [getAssoc, if_neg hk]
      exact ih hn.2 hmem

theorem getAssoc_perm {β : Type} (l1 l2 : List (String × β)) (h : l1.Perm l2)
    (hn : (keysOf l1).Nodup) (k : String) : getAssoc l1 k = getAssoc l2 k := by
  have hn2 : (keysOf l2).Nodup := ((h.map Prod.fst).nodup_iff).mp hn
  cases hg : getAssoc l1 k with
  | some v =>
    rw [getAssoc_eq_some_of_mem l2 k v hn2 (h.mem_iff.mp (mem_of_getAssoc_eq_some _ _ _ hg))]
  | none =>
    rw [getAssoc_eq_none_iff] at hg
    rw [(getAssoc_eq_none_iff l2 k).mpr]
    intro hmem
    exact hg (((h.map Prod.fst).mem_iff).mpr hmem)

theorem hasAssoc_false_iff {β : Type} (l : List (String × β)) (k : String) :
    hasAssoc l k = false ↔ k ∉ keysOf l := by
  unfold hasAssoc
  cases hg : getAssoc l k with
  | none =>
    rw [getAssoc_eq_none_iff] at hg
    simp [hg]
  | some v =>
    have hmem : k ∈ keysOf l :=
      List.mem_map.mpr ⟨(k, v), mem_of_getAssoc_eq_some _ _ _ hg, rfl⟩
    simp [hmem]

theorem nodup_keysOf_of_wfD (d : Dict) (hd : wfD d = true) : (keysOf d).Nodup := by
  induction d with
  | nil => exact List.nodup_nil
  | cons x rest ih =>
    obtain ⟨k, n⟩ := x
    rw [wfD, Bool.and_eq_true, Bool.and_eq_true] at hd
    obtain ⟨⟨hk, -⟩, hrest⟩ := hd
    have hk' : hasAssoc rest k = false := by simpa using hk
    exact List.nodup_cons.mpr ⟨(hasAssoc_false_iff rest k).mp hk', ih hrest⟩

theorem wfN_of_getAssoc (d : Dict) (k : String) (n : Node) (hd : wfD d = true)
    (h : getAssoc d k = some n) : wfN n = true := by
  induction d with
  | nil => simp [getAssoc] at h
  | cons x rest ih =>
    obtain ⟨k1, v1⟩ := x
    rw [wfD, Bool.and_eq_true, Bool.and_eq_true] at hd
    rw [getAssoc] at h
    by_cases hk : k = k1
    · rw [if_pos hk] at h
      cases h
      exact hd.1.2
    · rw [if_neg hk] at h
      exact ih hd.2 h

theorem wfD_setAssoc (d : Dict) (k : String) (v : Node) (hd : wfD d = true)
    (hv : wfN v = true) : wfD (setAssoc d k v) = true := by
  induction d with
  | nil => simp [setAssoc, wfD, hasAssoc, getAssoc, hv]
  | cons x rest ih =>
    obtain ⟨k1, n1⟩ := x
    rw [wfD, Bool.and_eq_true, Bool.and_eq_true] at hd
    obtain ⟨⟨hk1, hn1⟩, hrest⟩ := hd
    by_cases h : k1 = k
    · subst h
      simp only [setAssoc, if_pos rfl, wfD, Bool.and_eq_true]
      exact ⟨⟨hk1, hv⟩, hrest⟩
    · simp only [setAssoc, if_neg h, wfD, Bool.and_eq_true]
      refine ⟨⟨?_, hn1⟩, ih hrest⟩
      have : hasAssoc (setAssoc rest k v) k1 = hasAssoc rest k1 := by
        unfold hasAssoc
        rw [getAssoc_setAssoc_ne rest k k1 v h]
      rw [this]
      exact hk1

theorem wfD_insertParts (ty : String) :
    ∀ (parts : List String) (d : Dict), wfD d = true →
      wfD (insertParts ty d parts) = true
  | [], _, hd => hd
  | [p], d, hd => by
    simp only [insertParts]
    split
    · exact hd
    · exact wfD_setAssoc d p _ hd rfl
  | p :: q :: rest, d, hd => by
    simp only [insertParts]
    split
    · exact wfD_insertParts ty (q :: rest) d hd
    · refine wfD_setAssoc d p _ hd ?_
      have hcs : wfD ((match getAssoc d p with
          | none => Node.mk "tree" (some [])
          | some n => if isTreeDir n.ty then n else Node.mk "tree" (some [])).children.getD
            []) = true := by
        cases hg : getAssoc d p with
        | none => rfl
        | some n =>
          have hn := wfN_of_getAssoc d p n hd hg
          cases n with
          | mk nty noc =>
            cases noc with
            | none =>
              by_cases ht : isTreeDir nty = true
              · simp [Node.ty, ht, Node.children]
                rfl
              · simp [Node.ty, ht, Node.children]
                rfl
            | some ncs =>
              by_cases ht : isTreeDir nty = true
              · simp only [Node.ty, ht, if_true, Node.children, Option.getD_some]
                exact hn
              · simp [Node.ty, ht, Node.children]
                rfl
      show wfN (Node.mk _ (some _)) = true
      show wfD (insertParts ty _ (q :: rest)) = true
      exact wfD_insertParts ty (q :: rest) _ hcs

theorem canonNode_ty (n : Node) : (canonNode n).ty = n.ty := by
  cases n with
  | mk ty oc => cases oc <;> rfl

theorem canonPairs_getAssoc (d : Dict) (k : String) :
    getAssoc (canonPairs d) k = (getAssoc d k).map canonNode := by
  induction d with
  | nil => rfl
  | cons x rest ih =>
    obtain ⟨k1, n1⟩ := x
    by_cases h : k = k1
    · simp [canonPairs, getAssoc, h]
    · simp only [canonPairs, getAssoc, if_neg h]
      exact ih

theorem keysOf_canonPairs (d : Dict) : keysOf (canonPairs d) = keysOf d := by
  induction d with
  | nil => rfl
  | cons x rest ih =>
    obtain ⟨k1, n1⟩ := x
    simp only [canonPairs, keysOf, List.map_cons] at ih ⊢
    rw [ih]

theorem canonPairs_setAssoc (d : Dict) (k : String) (v : Node) :
    canonPairs (setAssoc d k v) = setAssoc (canonPairs d) k (canonNode v) := by
  induction d with
  | nil => rfl
  | cons x rest ih =>
    obtain ⟨k1, n1⟩ := x
    by_cases h : k1 = k
    · simp [setAssoc, canonPairs, h]
    · simp only [setAssoc, if_neg h, canonPairs]
      rw [ih]

theorem length_canonPairs (d : Dict) : (canonPairs d).length = d.length := by
  induction d with
  | nil => rfl
  | cons x rest ih =>
    obtain ⟨k1, n1⟩ := x
    simp [canonPairs, ih]

theorem setKeySorted_cons_eq (t : Dict) (a : String) (b v : Node) :
    setKeySorted ((a, b) :: t) a v = (a, v) :: t := by
  simp [setKeySorted]

theorem setKeySorted_cons_lt (t : Dict) (a : String) (b : Node) (p : String) (v : Node)
    (h1 : p ≠ a) (h2 : strLt p a = true) :
    setKeySorted ((a, b) :: t) p v = (p, v) :: (a, b) :: t := by
  simp [setKeySorted, h1, h2]

theorem setKeySorted_cons_gt (t : Dict) (a : String) (b : Node) (p : String) (v : Node)
    (h1 : p ≠ a) (h2 : strLt p a = false) :
    setKeySorted ((a, b) :: t) p v = (a, b) :: setKeySorted t p v := by
  simp [setKeySorted, h1, h2]

theorem insortPair_cons_lt (x y : String × Node) (ys : Dict) (h : strLt y.1 x.1 = true) :
    insortPair x (y :: ys) = y :: insortPair x ys := by
  simp [insortPair, h]

theorem insortPair_cons_ge (x y : String × Node) (ys : Dict) (h : strLt y.1 x.1 = false) :
    insortPair x (y :: ys) = x :: y :: ys := by
  simp [insortPair, h]

theorem setKeySorted_insort_self (s : Dict) (p : String) (x v : Node)
    (hp : p ∉ keysOf s) : setKeySorted (insortPair (p, x) s) p v = insortPair (p, v) s := by
  induction s with
  | nil =>
    show setKeySorted [(p, x)] p v = [(p, v)]
    rw [setKeySorted_cons_eq [] p x v]
  | cons y t ih =>
    obtain ⟨a, b⟩ := y
    have hpa : p ≠ a := by
      intro h
      exact hp (by simp [keysOf, h])
    have hpt : p ∉ keysOf t := fun h => hp (by simp [keysOf] at h ⊢; exact Or.inr h)
    by_cases hlt : strLt a p = true
    · rw [insortPair_cons_lt (p, x) (a, b) t hlt]
      rw [setKeySorted_cons_gt (insortPair (p, x) t) a b p v hpa (strLt_asymm a p hlt)]
      rw [ih hpt]
      rw [insortPair_cons_lt (p, v) (a, b) t hlt]
    · have hlt' : strLt a p = false := by simpa using hlt
      rw [insortPair_cons_ge (p, x) (a, b) t hlt']
      rw [setKeySorted_cons_eq ((a, b) :: t) p x v]
      rw [insortPair_cons_ge (p, v) (a, b) t hlt']

theorem setKeySorted_insort_comm (s : Dict) (p k : String) (hpk : p ≠ k)
    (n v : Node) :
    insortPair (k, n) (setKeySorted s p v) = setKeySorted (insortPair (k, n) s) p v := by
  induction s with
  | nil =>
    show insortPair (k, n) [(p, v)] = setKeySorted [(k, n)] p v
    by_cases h : strLt p k = true
    · rw [insortPair_cons_lt (k, n) (p, v) [] h]
      rw [setKeySorted_cons_lt [] k n p v hpk h]
      rfl
    · have h' : strLt p k = false := by simpa using h
      rw [insortPair_cons_ge (k, n) (p, v) [] h']
      rw [setKeySorted_cons_gt [] k n p v hpk h']
      rfl
  | cons y t ih =>
    obtain ⟨a, b⟩ := y
    by_cases hpa : p = a
    · subst hpa
      rw [setKeySorted_cons_eq t p b v]
      by_cases h : strLt p k = true
      · rw [insortPair_cons_lt (k, n) (p, v) t h]
        rw [insortPair_cons_lt (k, n) (p, b) t h]
        rw [setKeySorted_cons_eq _ p b v]
      · have h' : strLt p k = false := by simpa using h
        rw [insortPair_cons_ge (k, n) (p, v) t h']
        rw [insortPair_cons_ge (k, n) (p, b) t h']
        rw [setKeySorted_cons_gt ((p, b) :: t) k n p v hpk h']
        rw [setKeySorted_cons_eq t p b v]
    · by_cases hlt : strLt p a = true
      · rw [setKeySorted_cons_lt t a b p v hpa hlt]
        by_cases hak : strLt a k = true
        · have hpk2 : strLt p k = true := strLt_trans p a k hlt hak
          rw [insortPair_cons_lt (k, n) (p, v) ((a, b) :: t) hpk2]
          rw [insortPair_cons_lt (k, n) (a, b) t hak]
          rw [setKeySorted_cons_lt (insortPair (k, n) t) a b p v hpa hlt]
        · have hak' : strLt a k = false := by simpa using hak
          rw [insortPair_cons_ge (k, n) (a, b) t hak']
          by_cases hpk3 : strLt p k = true
          · rw [insortPair_cons_lt (k, n) (p, v) ((a, b) :: t) hpk3]
            rw [insortPair_cons_ge (k, n) (a, b) t hak']
            rw [setKeySorted_cons_lt ((a, b) :: t) k n p v hpk hpk3]
          · have hpk3' : strLt p k = false := by simpa using hpk3
            rw [insortPair_cons_ge (k, n) (p, v) ((a, b) :: t) hpk3']
            rw [setKeySorted_cons_gt ((a, b) :: t) k n p v hpk hpk3']
            rw [setKeySorted_cons_lt t a b p v hpa hlt]
      · have hlt' : strLt p a = false := by simpa using hlt
        have hap : strLt a p = true := by
          rcases strLt_total p a with h | h | h
          · rw [h] at hlt'; cases hlt'
          · exact h
          · exact absurd h hpa
        rw [setKeySorted_cons_gt t a b p v hpa hlt']
        by_cases hak : strLt a k = true
        · rw [insortPair_cons_lt (k, n) (a, b) (setKeySorted t p v) hak]
          rw [insortPair_cons_lt (k, n) (a, b) t hak]
          rw [ih]
          rw [setKeySorted_cons_gt (insortPair (k, n) t) a b p v hpa hlt']
        · have hak' : strLt a k = false := by simpa using hak
          rw [insortPair_cons_ge (k, n) (a, b) (setKeySorted t p v) hak']
          rw [insortPair_cons_ge (k, n) (a, b) t hak']
          have hkp : strLt k p = true := by
            rcases strLt_total a k with h | h | h
            · rw [h] at hak'; cases hak'
            · exact strLt_trans k a p h hap
            · rw [← h]; exact hap
          have hpk4 : strLt p k = false := strLt_asymm k p hkp
          rw [setKeySorted_cons_gt ((a, b) :: t) k n p v hpk hpk4]
          rw [setKeySorted_cons_gt t a b p v hpa hlt']

theorem sortPairs_setAssoc (l : Dict) (p : String) (v : Node)
    (hn : (keysOf l).Nodup) :
    sortPairs (setAssoc l p v) = setKeySorted (sortPairs l) p v := by
  induction l with
  | nil => rfl
  | cons x rest ih =>
    obtain ⟨k1, n1⟩ := x
    rw [keysOf, List.map_cons, List.nodup_cons] at hn
    by_cases h : k1 = p
    · subst h
      simp only [setAssoc, if_pos rfl, sortPairs]
      have hp1 : k1 ∉ keysOf (sortPairs rest) := by
        intro hmem
        exact hn.1 (((sortPairs_perm rest).map Prod.fst).mem_iff.mp hmem)
      rw [setKeySorted_insort_self (sortPairs rest) k1 n1 v hp1]
    · simp only [setAssoc, if_neg h, sortPairs]
      rw [ih hn.2]
      exact setKeySorted_insort_comm (sortPairs rest) p k1 (fun hh => h hh.symm) n1 v

theorem getAssoc_canonDict (d : Dict) (k : String) (hd : wfD d = true) :
    getAssoc (canonDict d) k = (getAssoc d k).map canonNode := by
  have hn : (keysOf (canonPairs d)).Nodup := by
    rw [keysOf_canonPairs]
    exact nodup_keysOf_of_wfD d hd
  have hn2 : (keysOf (sortPairs (canonPairs d))).Nodup :=
    (((sortPairs_perm (canonPairs d)).map Prod.fst).nodup_iff).mpr hn
  rw [canonDict, getAssoc_perm (sortPairs (canonPairs d)) (canonPairs d)
    (sortPairs_perm (canonPairs d)) hn2 k, canonPairs_getAssoc]

theorem canonDict_setAssoc (d : Dict) (p : String) (v : Node) (hd : wfD d = true) :
    canonDict (setAssoc d p v) = setKeySorted (canonDict d) p (canonNode v) := by
  have hn : (keysOf (canonPairs d)).Nodup := by
    rw [keysOf_canonPairs]
    exact nodup_keysOf_of_wfD d hd
  rw [canonDict, canonPairs_setAssoc, sortPairs_setAssoc (canonPairs d) p (canonNode v) hn]
  rfl

/-- One non-final step of the builder and of its canonical transport agree: a
common node type and a common (well-keyed) previous-children dict feed both. -/
theorem canon_step (ty p : String) (hp : p ≠ "") (r : String) (rs : List String)
    (d : Dict) (hd : wfD d = true) :
    ∃ T cs0, wfD cs0 = true ∧
      insertParts ty d (p :: r :: rs) =
        setAssoc d p (Node.mk T (some (insertParts ty cs0 (r :: rs)))) ∧
      insC ty (canonDict d) (p :: r :: rs) =
        setKeySorted (canonDict d) p (Node.mk T (some (insC ty (canonDict cs0) (r :: rs)))) := by
  have hgc : getAssoc (canonDict d) p = (getAssoc d p).map canonNode :=
    getAssoc_canonDict d p hd
  cases hg : getAssoc d p with
  | none =>
    have hgc2 : getAssoc (canonDict d) p = none := by rw [hgc, hg]; rfl
    refine ⟨"tree", [], rfl, ?_, ?_⟩
    · simp [insertParts, hp, hg, Node.ty, Node.children]
    · rw [show canonDict ([] : Dict) = [] from rfl]
      simp [insC, hp, hgc2, Node.ty, Node.children]
  | some n =>
    have hgc2 : getAssoc (canonDict d) p = some (canonNode n) := by rw [hgc, hg]; rfl
    have hn := wfN_of_getAssoc d p n hd hg
    cases n with
    | mk nty noc =>
      cases noc with
      | none =>
        by_cases ht : isTreeDir nty = true
        · refine ⟨nty, [], rfl, ?_, ?_⟩
          · simp [insertParts, hp, hg, Node.ty, ht, Node.children]
          · rw [show canonDict ([] : Dict) = [] from rfl]
            simp [insC, hp, hgc2, canonNode, Node.ty, ht, Node.children]
        · refine ⟨"tree", [], rfl, ?_, ?_⟩
          · simp [insertParts, hp, hg, Node.ty, ht, Node.children]
          · rw [show canonDict ([] : Dict) = [] from rfl]
            simp [insC, hp, hgc2, canonNode, Node.ty, ht, Node.children]
      | some ncs =>
        have hncs : wfD ncs = true := hn
        by_cases ht : isTreeDir nty = true
        · refine ⟨nty, ncs, hncs, ?_, ?_⟩
          · simp [insertParts, hp, hg, Node.ty, ht, Node.children]
          · rw [show canonDict ncs = sortPairs (canonPairs ncs) from rfl]
            simp [insC, hp, hgc2, canonNode, Node.ty, ht, Node.children]
        · refine ⟨"tree", [], rfl, ?_, ?_⟩
          · simp [insertParts, hp, hg, Node.ty, ht, Node.children]
          · rw [show canonDict ([] : Dict) = [] from rfl]
            simp [insC, hp, hgc2, canonNode, Node.ty, ht, Node.children]

/-- The canonical form of the dict the builder produces is computed by the
canonical-side insertion `insC` from the canonical form of the input dict. -/
theorem canonDict_insertParts (ty : String) :
    ∀ (parts : List String) (d : Dict), wfD d = true →
      canonDict (insertParts ty d parts) = insC ty (canonDict d) parts
  | [], _, _ => rfl
  | [p], d, hd => by
    by_cases hp : p = ""
    · simp only [insertParts, insC, if_pos hp]
    · simp only [insertParts, insC, if_neg hp]
      rw [canonDict_setAssoc d p (Node.mk ty none) hd]
      rfl
  | p :: q :: rest, d, hd => by
    by_cases hp : p = ""
    · have h1 : insertParts ty d (p :: q :: rest) = insertParts ty d (q :: rest) := by
        simp only [insertParts, if_pos hp]
      have h2 : insC ty (canonDict d) (p :: q :: rest) = insC ty (canonDict d) (q :: rest) := by
        simp only [insC, if_pos hp]
      rw [h1, h2]
      exact canonDict_insertParts ty (q :: rest) d hd
    · obtain ⟨T, cs0, hcs0, e1, e2⟩ := canon_step ty p hp q rest d hd
      rw [e1, e2, canonDict_setAssoc d p (Node.mk T (some (insertParts ty cs0 (q :: rest)))) hd]
      show setKeySorted (canonDict d) p
          (Node.mk T (some (canonDict (insertParts ty cs0 (q :: rest))))) =
        setKeySorted (canonDict d) p (Node.mk T (some (insC ty (canonDict cs0) (q :: rest))))
      rw [canonDict_insertParts ty (q :: rest) cs0 hcs0]

theorem getAssoc_setKeySorted_self (s : Dict) (p : String) (v : Node) :
    getAssoc (setKeySorted s p v) p = some v := by
  induction s with
  | nil => simp [setKeySorted, getAssoc]
  | cons y t ih =>
    obtain ⟨a, b⟩ := y
    by_cases h : p = a
    · subst h
      rw [setKeySorted_cons_eq t p b v]
      simp [getAssoc]
    · by_cases hlt : strLt p a = true
      · rw [setKeySorted_cons_lt t a b p v h hlt]
        simp [getAssoc]
      · rw [setKeySorted_cons_gt t a b p v h (by simpa using hlt)]
        simp [getAssoc, h, ih]

theorem getAssoc_setKeySorted_ne (s : Dict) (p q : String) (v : Node) (hq : q ≠ p) :
    getAssoc (setKeySorted s p v) q = getAssoc s q := by
  induction s with
  | nil => simp [setKeySorted, getAssoc, hq]
  | cons y t ih =>
    obtain ⟨a, b⟩ := y
    by_cases h : p = a
    · subst h
      rw [setKeySorted_cons_eq t p b v]
      simp [getAssoc, hq]
    · by_cases hlt : strLt p a = true
      · rw [setKeySorted_cons_lt t a b p v h hlt]
        simp [getAssoc, hq]
      · rw [setKeySorted_cons_gt t a b p v h (by simpa using hlt)]
        by_cases h2 : q = a
        · simp [getAssoc, h2]
        · simp [getAssoc, h2, ih]

theorem setKeySorted_overwrite (s : Dict) (p : String) (v w : Node) :
    setKeySorted (setKeySorted s p v) p w = setKeySorted s p w := by
  induction s with
  | nil =>
    show setKeySorted [(p, v)] p w = [(p, w)]
    rw [setKeySorted_cons_eq [] p v w]
  | cons y t ih =>
    obtain ⟨a, b⟩ := y
    by_cases h : p = a
    · subst h
      rw [setKeySorted_cons_eq t p b v, setKeySorted_cons_eq t p v w,
        setKeySorted_cons_eq t p b w]
    · by_cases hlt : strLt p a = true
      · rw [setKeySorted_cons_lt t a b p v h hlt]
        rw [setKeySorted_cons_eq ((a, b) :: t) p v w]
        rw [setKeySorted_cons_lt t a b p w h hlt]
      · have hlt2 : strLt p a = false := by simpa using hlt
        rw [setKeySorted_cons_gt t a b p v h hlt2]
        rw [setKeySorted_cons_gt (setKeySorted t p v) a b p w h hlt2]
        rw [setKeySorted_cons_gt t a b p w h hlt2]
        rw [ih]

theorem setKeySorted_comm (s : Dict) (p q : String) (hpq : p ≠ q) (v w : Node) :
    setKeySorted (setKeySorted s p v) q w = setKeySorted (setKeySorted s q w) p v := by
  induction s with
  | nil =>
    show setKeySorted [(p, v)] q w = setKeySorted [(q, w)] p v
    by_cases h : strLt q p = true
    · have h2 : strLt p q = false := strLt_asymm q p h
      rw [setKeySorted_cons_lt [] p v q w (fun hh => hpq hh.symm) h]
      rw [setKeySorted_cons_gt [] q w p v hpq h2]
      rfl
    · have h1 : strLt q p = false := by simpa using h
      have h2 : strLt p q = true := by
        rcases strLt_total p q with hh | hh | hh
        · exact hh
        · rw [hh] at h1; cases h1
        · exact absurd hh hpq
      rw [setKeySorted_cons_gt [] p v q w (fun hh => hpq hh.symm) h1]
      rw [setKeySorted_cons_lt [] q w p v hpq h2]
      rfl
  | cons y t ih =>
    obtain ⟨a, b⟩ := y
    by_cases hpa : p = a
    · subst hpa
      have hqp : q ≠ p := fun hh => hpq hh.symm
      rw [setKeySorted_cons_eq t p b v]
      by_cases h : strLt q p = true
      · have h2 : strLt p q = false := strLt_asymm q p h
        rw [setKeySorted_cons_lt t p v q w hqp h]
        rw [setKeySorted_cons_lt t p b q w hqp h]
        rw [setKeySorted_cons_gt ((p, b) :: t) q w p v hpq h2]
        rw [setKeySorted_cons_eq t p b v]
      · have h1 : strLt q p = false := by simpa using h
        rw [setKeySorted_cons_gt t p v q w hqp h1]
        rw [setKeySorted_cons_gt t p b q w hqp h1]
        rw [setKeySorted_cons_eq (setKeySorted t q w) p b v]
    · by_cases hqa : q = a
      · subst hqa
        rw [setKeySorted_cons_eq t q b w]
        by_cases h : strLt p q = true
        · have h2 : strLt q p = false := strLt_asymm p q h
          rw [setKeySorted_cons_lt t q b p v hpq h]
          rw [setKeySorted_cons_gt ((q, b) :: t) p v q w (fun hh => hpq hh.symm) h2]
          rw [setKeySorted_cons_eq t q b w]
          rw [setKeySorted_cons_lt t q w p v hpq h]
        · have h1 : strLt p q = false := by simpa using h
          rw [setKeySorted_cons_gt t q b p v hpq h1]
          rw [setKeySorted_cons_eq (setKeySorted t p v) q b w]
          rw [setKeySorted_cons_gt t q w p v hpq h1]
      · by_cases hplt : strLt p a = true
        · by_cases hqlt : strLt q a = true
          · rw [setKeySorted_cons_lt t a b p v hpa hplt]
            rw [setKeySorted_cons_lt t a b q w hqa hqlt]
            by_cases h : strLt q p = true
            · have h2 : strLt p q = false := strLt_asymm q p h
              rw [setKeySorted_cons_lt ((a, b) :: t) p v q w (fun hh => hpq hh.symm) h]
              rw [setKeySorted_cons_gt ((a, b) :: t) q w p v hpq h2]
              rw [setKeySorted_cons_lt t a b p v hpa hplt]
            · have h1 : strLt q p = false := by simpa using h
              have h2 : strLt p q = true := by
                rcases strLt_total p q with hh | hh | hh
                · exact hh
                · rw [hh] at h1; cases h1
                · exact absurd hh hpq
              rw [setKeySorted_cons_gt ((a, b) :: t) p v q w (fun hh => hpq hh.symm) h1]
              rw [setKeySorted_cons_lt t a b q w hqa hqlt]
              rw [setKeySorted_cons_lt ((a, b) :: t) q w p v hpq h2]
          · have hqlt2 : strLt q a = false := by simpa using hqlt
            have hqp : strLt q p = false := by
              by_cases hh : strLt q p = true
              · rw [strLt_trans q p a hh hplt] at hqlt2
                cases hqlt2
              · simpa using hh
            rw [setKeySorted_cons_lt t a b p v hpa hplt]
            rw [setKeySorted_cons_gt ((a, b) :: t) p v q w (fun hh => hpq hh.symm) hqp]
            rw [setKeySorted_cons_gt t a b q w hqa hqlt2]
            rw [setKeySorted_cons_lt (setKeySorted t q w) a b p v hpa hplt]
        · have hplt2 : strLt p a = false := by simpa using hplt
          by_cases hqlt : strLt q a = true
          · have hpq2 : strLt p q = false := by
              by_cases hh : strLt p q = true
              · rw [strLt_trans p q a hh hqlt] at hplt2
                cases hplt2
              · simpa using hh
            rw [setKeySorted_cons_lt t a b q w hqa hqlt]
            rw [setKeySorted_cons_gt ((a, b) :: t) q w p v hpq hpq2]
            rw [setKeySorted_cons_gt t a b p v hpa hplt2]
            rw [setKeySorted_cons_lt (setKeySorted t p v) a b q w hqa hqlt]
          · have hqlt2 : strLt q a = false := by simpa using hqlt
            rw [setKeySorted_cons_gt t a b p v hpa hplt2]
            rw [setKeySorted_cons_gt t a b q w hqa hqlt2]
            rw [setKeySorted_cons_gt (setKeySorted t p v) a b q w hqa hqlt2]
            rw [setKeySorted_cons_gt (setKeySorted t q w) a b p v hpa hplt2]
            rw [ih]

/-- Node type the canonical insertion writes at a non-final segment. -/
def insTy (s : Dict) (h : String) : String :=
  match getAssoc s h with
  | none => "tree"
  | some n => if isTreeDir n.ty then n.ty else "tree"

/-- Children dict the canonical insertion recurses into at a non-final segment. -/
def insCs (s : Dict) (h : String) : Dict :=
  match getAssoc s h with
  | none => []
  | some n => if isTreeDir n.ty then n.children.getD [] else []

theorem isTreeDir_insTy (s : Dict) (h : String) : isTreeDir (insTy s h) = true := by
  unfold insTy
  cases getAssoc s h with
  | none => rfl
  | some n =>
    show isTreeDir (if isTreeDir n.ty = true then n.ty else "tree") = true
    by_cases ht : isTreeDir n.ty = true
    · rw [if_pos ht]
      exact ht
    · rw [if_neg ht]
      decide

theorem insC_single (ty p : String) (hp : p ≠ "") (s : Dict) :
    insC ty s [p] = setKeySorted s p (Node.mk ty none) := by
  simp only [insC, if_neg hp]

theorem insC_step (ty h : String) (hh : h ≠ "") (r : String) (rs : List String) (s : Dict) :
    insC ty s (h :: r :: rs) =
      setKeySorted s h (Node.mk (insTy s h) (some (insC ty (insCs s h) (r :: rs)))) := by
  simp only [insC, if_neg hh, insTy, insCs]
  cases getAssoc s h with
  | none => rfl
  | some n =>
    by_cases ht : isTreeDir n.ty = true
    · simp only [if_pos ht]
    · simp only [if_neg ht]
      rfl

theorem insTy_setKeySorted_self (s : Dict) (h T : String) (cs : Dict)
    (hT : isTreeDir T = true) :
    insTy (setKeySorted s h (Node.mk T (some cs))) h = T := by
  unfold insTy
  rw [getAssoc_setKeySorted_self s h (Node.mk T (some cs))]
  simp [Node.ty, hT]

theorem insCs_setKeySorted_self (s : Dict) (h T : String) (cs : Dict)
    (hT : isTreeDir T = true) :
    insCs (setKeySorted s h (Node.mk T (some cs))) h = cs := by
  unfold insCs
  rw [getAssoc_setKeySorted_self s h (Node.mk T (some cs))]
  simp [Node.ty, Node.children, hT]

/-- The insertion of one clean path acts on the dict by a sorted write at its
head key, with a value that depends only on the previous entry at that key. -/
theorem insC_cons_form (ty p : String) (hp : p ≠ "") (rest : List String) :
    ∃ V : Option Node → Node,
      ∀ s : Dict, insC ty s (p :: rest) = setKeySorted s p (V (getAssoc s p)) := by
  cases rest with
  | nil =>
    refine ⟨fun _ => Node.mk ty none, fun s => ?_⟩
    exact insC_single ty p hp s
  | cons r rs =>
    refine ⟨fun o =>
      Node.mk
        (match o with
          | none => "tree"
          | some n => if isTreeDir n.ty then n.ty else "tree")
        (some (insC ty
          (match o with
            | none => []
            | some n => if isTreeDir n.ty then n.children.getD [] else [])
          (r :: rs))), fun s => ?_⟩
    rw [insC_step ty p hp r rs s]
    rfl

/-- Canonical insertions of two clean paths, neither of which is a segment
prefix of the other, commute. -/
theorem insC_comm (tyA tyB : String) :
    ∀ (pa pb : List String) (s : Dict),
      pa.all (fun x => x ≠ "") = true → pb.all (fun x => x ≠ "") = true →
      isHeadSeg pa pb = false → isHeadSeg pb pa = false →
      insC tyA (insC tyB s pb) pa = insC tyB (insC tyA s pa) pb
  | [], pb, s, ha, hb, hab, hba => by simp [isHeadSeg] at hab
  | a :: ra, [], s, ha, hb, hab, hba => by simp [isHeadSeg] at hba
  | a :: ra, b :: rb, s, ha, hb, hab, hba => by
    simp only [List.all_cons, Bool.and_eq_true, decide_eq_true_eq] at ha hb
    by_cases hEq : a = b
    · subst hEq
      cases ra with
      | nil => simp [isHeadSeg] at hab
      | cons r1 ra1 =>
        cases rb with
        | nil => simp [isHeadSeg] at hba
        | cons s1 rb1 =>
          have hab2 : isHeadSeg (r1 :: ra1) (s1 :: rb1) = false := by
            simpa [isHeadSeg] using hab
          have hba2 : isHeadSeg (s1 :: rb1) (r1 :: ra1) = false := by
            simpa [isHeadSeg] using hba
          have hT := isTreeDir_insTy s a
          rw [insC_step tyB a ha.1 s1 rb1 s]
          rw [insC_step tyA a ha.1 r1 ra1
            (setKeySorted s a (Node.mk (insTy s a) (some (insC tyB (insCs s a) (s1 :: rb1)))))]
          rw [insTy_setKeySorted_self s a (insTy s a) (insC tyB (insCs s a) (s1 :: rb1)) hT]
          rw [insCs_setKeySorted_self s a (insTy s a) (insC tyB (insCs s a) (s1 :: rb1)) hT]
          rw [setKeySorted_overwrite s a
            (Node.mk (insTy s a) (some (insC tyB (insCs s a) (s1 :: rb1))))]
          rw [insC_step tyA a ha.1 r1 ra1 s]
          rw [insC_step tyB a ha.1 s1 rb1
            (setKeySorted s a (Node.mk (insTy s a) (some (insC tyA (insCs s a) (r1 :: ra1)))))]
          rw [insTy_setKeySorted_self s a (insTy s a) (insC tyA (insCs s a) (r1 :: ra1)) hT]
          rw [insCs_setKeySorted_self s a (insTy s a) (insC tyA (insCs s a) (r1 :: ra1)) hT]
          rw [setKeySorted_overwrite s a
            (Node.mk (insTy s a) (some (insC tyA (insCs s a) (r1 :: ra1))))]
          rw [insC_comm tyA tyB (r1 :: ra1) (s1 :: rb1) (insCs s a) ha.2 hb.2 hab2 hba2]
    · obtain ⟨VA, hVA⟩ := insC_cons_form tyA a ha.1 ra
      obtain ⟨VB, hVB⟩ := insC_cons_form tyB b hb.1 rb
      rw [hVB s]
      rw [hVA (setKeySorted s b (VB (getAssoc s b)))]
      rw [getAssoc_setKeySorted_ne s b a (VB (getAssoc s b)) hEq]
      rw [hVA s]
      rw [hVB (setKeySorted s a (VA (getAssoc s a)))]
      rw [getAssoc_setKeySorted_ne s a b (VA (getAssoc s a)) (fun hh => hEq hh.symm)]
      exact setKeySorted_comm s b a (fun hh => hEq hh.symm) (VB (getAssoc s b))
        (VA (getAssoc s a))

/-- The canonical-side fold over a list of entries. -/
def foldC (s : Dict) (l : List TreeEntry) : Dict :=
  l.foldl (fun s e => insC (e.type.getD "blob") s (entrySegs e)) s

theorem wfD_build_fold : ∀ (l : List TreeEntry) (d : Dict), wfD d = true →
    wfD (l.foldl (fun d item =>
      insertParts (item.type.getD "blob") d (pySplitStr (item.path.getD "") '/')) d) = true
  | [], _, hd => hd
  | e :: t, d, hd => by
    simp only [List.foldl_cons]
    exact wfD_build_fold t _ (wfD_insertParts (e.type.getD "blob")
      (pySplitStr (e.path.getD "") '/') d hd)

theorem canonDict_build_fold : ∀ (l : List TreeEntry) (d : Dict), wfD d = true →
    canonDict (l.foldl (fun d item =>
      insertParts (item.type.getD "blob") d (pySplitStr (item.path.getD "") '/')) d) =
      foldC (canonDict d) l
  | [], _, _ => rfl
  | e :: t, d, hd => by
    simp only [List.foldl_cons]
    rw [canonDict_build_fold t _ (wfD_insertParts (e.type.getD "blob")
      (pySplitStr (e.path.getD "") '/') d hd)]
    rw [canonDict_insertParts (e.type.getD "blob") (pySplitStr (e.path.getD "") '/') d hd]
    rfl

/-- Neither of two entries' split paths is a segment prefix of the other. -/
abbrev NoNest (e1 e2 : TreeEntry) : Prop :=
  isHeadSeg (entrySegs e1) (entrySegs e2) = false ∧
  isHeadSeg (entrySegs e2) (entrySegs e1) = false

theorem foldC_perm : ∀ (l1 l2 : List TreeEntry), l1.Perm l2 →
    (∀ e ∈ l1, entryClean e = true) → l1.Pairwise NoNest →
    ∀ s : Dict, foldC s l1 = foldC s l2 := by
  intro l1 l2 h
  induction h with
  | nil => intro _ _ _; rfl
  | cons x hperm ih =>
    intro hclean hnn s
    exact ih (fun e he => hclean e (List.mem_cons_of_mem x he))
      (List.Pairwise.of_cons hnn) (insC (x.type.getD "blob") s (entrySegs x))
  | swap x y l =>
    intro hclean hnn s
    have hyx : NoNest y x := (List.pairwise_cons.mp hnn).1 x (List.mem_cons_self x l)
    have hcy : entryClean y = true := hclean y (List.mem_cons_self y (x :: l))
    have hcx : entryClean x = true := hclean x (List.mem_cons_of_mem y (List.mem_cons_self x l))
    have hax : (entrySegs x).all (fun q => q ≠ "") = true := by
      rw [entryClean, Bool.and_eq_true] at hcx
      exact hcx.2
    have hay : (entrySegs y).all (fun q => q ≠ "") = true := by
      rw [entryClean, Bool.and_eq_true] at hcy
      exact hcy.2
    have hcomm := insC_comm (x.type.getD "blob") (y.type.getD "blob")
      (entrySegs x) (entrySegs y) s hax hay hyx.2 hyx.1
    show foldC (insC (x.type.getD "blob") (insC (y.type.getD "blob") s (entrySegs y))
        (entrySegs x)) l =
      foldC (insC (y.type.getD "blob") (insC (x.type.getD "blob") s (entrySegs x))
        (entrySegs y)) l
    rw [hcomm]
  | trans h1 h2 ih1 ih2 =>
    intro hclean hnn s
    rw [ih1 hclean hnn s]
    exact ih2 (fun e he => hclean e (h1.mem_iff.mpr he))
      ((h1.pairwise_iff (fun hab => ⟨hab.2, hab.1⟩)).mp hnn) s

theorem canonPairs_insortPair (k : String) (n : Node) (l : Dict) :
    canonPairs (insortPair (k, n) l) = insortPair (k, canonNode n) (canonPairs l) := by
  induction l with
  | nil => rfl
  | cons y t ih =>
    obtain ⟨a, b⟩ := y
    by_cases h : strLt a k = true
    · rw [insortPair_cons_lt (k, n) (a, b) t h]
      simp only [canonPairs]
      rw [ih]
      rw [insortPair_cons_lt (k, canonNode n) (a, canonNode b) (canonPairs t) h]
    · have h2 : strLt a k = false := by simpa using h
      rw [insortPair_cons_ge (k, n) (a, b) t h2]
      simp only [canonPairs]
      rw [insortPair_cons_ge (k, canonNode n) (a, canonNode b) (canonPairs t) h2]

theorem canonPairs_sortPairs (l : Dict) :
    canonPairs (sortPairs l) = sortPairs (canonPairs l) := by
  induction l with
  | nil => rfl
  | cons x t ih =>
    obtain ⟨k, n⟩ := x
    simp only [sortPairs, canonPairs]
    rw [canonPairs_insortPair k n (sortPairs t), ih]

theorem length_sortPairs (l : Dict) : (sortPairs l).length = l.length :=
  (sortPairs_perm l).length_eq

theorem format_tree_items_cons_none (name t : String) (rest : Dict) (c : String)
    (dep : Int) (m : Option Int) :
    format_tree_items ((name, Node.mk t none) :: rest) c dep m =
      (c ++ (if rest.isEmpty then "└── " else "├── ") ++ name ++
        (if t = "tree" then "/" else "")) ::
      format_tree_items rest c dep m := by
  simp only [format_tree_items]
  simp [Node.ty, Node.children, ite_self]

theorem format_tree_items_cons_some (name t : String) (cs : Dict) (rest : Dict) (c : String)
    (dep : Int) (m : Option Int) :
    format_tree_items ((name, Node.mk t (some cs)) :: rest) c dep m =
      (c ++ (if rest.isEmpty then "└── " else "├── ") ++ name ++
        (if t = "tree" then "/" else "")) ::
      ((if t = "tree" then
          (if cs.isEmpty then []
           else format_tree_recursively cs
             (c ++ (if rest.isEmpty then "    " else "│   ")) (dep + 1) m)
        else []) ++ format_tree_items rest c dep m) := by
  simp only [format_tree_items]
  simp [Node.ty, Node.children]

/-- The child-name loop of the formatter only depends on the canonical form
of the (already sorted) children list it walks. -/
theorem format_items_canon : ∀ (n : ℕ) (l1 l2 : Dict), sizeOf l1 ≤ n →
    canonPairs l1 = canonPairs l2 →
    ∀ (c : String) (dep : Int) (m : Option Int),
      format_tree_items l1 c dep m = format_tree_items l2 c dep m := by
  intro n
  induction n using Nat.strong_induction_on with
  | _ n IH =>
    intro l1 l2 hsz hc c dep m
    cases l1 with
    | nil =>
      cases l2 with
      | nil => rfl
      | cons y t2 =>
        obtain ⟨k2, nd2⟩ := y
        simp [canonPairs] at hc
    | cons x t1 =>
      obtain ⟨k, nd⟩ := x
      cases l2 with
      | nil => simp [canonPairs] at hc
      | cons y t2 =>
        obtain ⟨k2, nd2⟩ := y
        simp only [canonPairs, List.cons.injEq, Prod.mk.injEq] at hc
        obtain ⟨⟨hk, hnd⟩, ht⟩ := hc
        subst hk
        have hszt : sizeOf t1 < n := by
          have h0 : sizeOf t1 < sizeOf ((k, nd) :: t1) := by
            simp
          omega
        have htail2 : format_tree_items t1 c dep m = format_tree_items t2 c dep m :=
          IH (sizeOf t1) (by omega) t1 t2 le_rfl ht c dep m
        have hlen : t1.length = t2.length := by
          have h1 := congrArg List.length ht
          simpa [length_canonPairs] using h1
        have hemp : t1.isEmpty = t2.isEmpty := by
          cases t1 with
          | nil =>
            cases t2 with
            | nil => rfl
            | cons z zs => simp at hlen
          | cons z zs =>
            cases t2 with
            | nil => simp at hlen
            | cons w ws => rfl
        cases nd with
        | mk t oc =>
          cases nd2 with
          | mk t2t oc2 =>
            cases oc with
            | none =>
              cases oc2 with
              | none =>
                simp only [canonNode, Node.mk.injEq] at hnd
                obtain ⟨hteq, -⟩ := hnd
                subst hteq
                rw [format_tree_items_cons_none k t t1 c dep m,
                  format_tree_items_cons_none k t t2 c dep m, hemp, htail2]
              | some cs2 =>
                simp only [canonNode, Node.mk.injEq] at hnd
                obtain ⟨-, hbad⟩ := hnd
                cases hbad
            | some cs1 =>
              cases oc2 with
              | none =>
                simp only [canonNode, Node.mk.injEq] at hnd
                obtain ⟨-, hbad⟩ := hnd
                cases hbad
              | some cs2 =>
                simp only [canonNode, Node.mk.injEq, Option.some.injEq] at hnd
                obtain ⟨hteq, hcs⟩ := hnd
                subst hteq
                have hcsl : cs1.length = cs2.length := by
                  have h1 := congrArg List.length hcs
                  simpa [length_sortPairs, length_canonPairs] using h1
                have hcse : cs1.isEmpty = cs2.isEmpty := by
                  cases cs1 with
                  | nil =>
                    cases cs2 with
                    | nil => rfl
                    | cons z zs => simp at hcsl
                  | cons z zs =>
                    cases cs2 with
                    | nil => simp at hcsl
                    | cons w ws => rfl
                have hszcs : sizeOf (sortPairs cs1) < n := by
                  rw [sizeOf_sortPairs]
                  have h0 : sizeOf cs1 < sizeOf ((k, Node.mk t (some cs1)) :: t1) := by
                    simp
                    omega
                  omega
                have hcanon2 : canonPairs (sortPairs cs1) = canonPairs (sortPairs cs2) := by
                  rw [canonPairs_sortPairs, canonPairs_sortPairs, hcs]
                have hrec : ∀ (c2 : String) (dep2 : Int),
                    format_tree_recursively cs1 c2 dep2 m =
                      format_tree_recursively cs2 c2 dep2 m := by
                  intro c2 dep2
                  rw [format_tree_recursively.eq_def, format_tree_recursively.eq_def]
                  split
                  · rfl
                  · exact IH (sizeOf (sortPairs cs1)) hszcs (sortPairs cs1) (sortPairs cs2)
                      le_rfl hcanon2 c2 dep2 m
                rw [format_tree_items_cons_some k t cs1 t1 c dep m,
                  format_tree_items_cons_some k t cs2 t2 c dep m,
                  hemp, htail2, hcse, hrec]

/-- The formatter only depends on the canonical form of the dict it renders. -/
theorem format_rec_canon (d1 d2 : Dict) (hc : canonDict d1 = canonDict d2)
    (c : String) (dep : Int) (m : Option Int) :
    format_tree_recursively d1 c dep m = format_tree_recursively d2 c dep m := by
  rw [format_tree_recursively.eq_def, format_tree_recursively.eq_def]
  split
  · rfl
  · apply format_items_canon (sizeOf (sortPairs d1)) (sortPairs d1) (sortPairs d2) le_rfl
    rw [canonPairs_sortPairs, canonPairs_sortPairs]
    exact hc

/-- C2 (amended): `format_github_tree_structure` yields the same string for
any permutation of the flat tree list, provided every entry path is
well-formed (non-empty, no empty segments) and no entry's segment list is a
prefix of another's (entries name disjoint, non-nested paths). -/
theorem C2_render_perm_invariant (l1 l2 : List TreeEntry) (h : l1.Perm l2)
    (hclean : ∀ e ∈ l1, entryClean e = true)
    (hnn : l1.Pairwise NoNest)
    (name : String) (maxD : Option Int) :
    format_github_tree_structure l1 name maxD =
      format_github_tree_structure l2 name maxD := by
  have hlen : l1.length = l2.length := h.length_eq
  have hemp : l1.isEmpty = l2.isEmpty := by
    cases l1 with
    | nil =>
      cases l2 with
      | nil => rfl
      | cons z zs => simp at hlen
    | cons z zs =>
      cases l2 with
      | nil => simp at hlen
      | cons w ws => rfl
  have hbuild : canonDict (build_hierarchical_tree l1) =
      canonDict (build_hierarchical_tree l2) := by
    simp only [build_hierarchical_tree]
    rw [canonDict_build_fold l1 [] rfl, canonDict_build_fold l2 [] rfl]
    exact foldC_perm l1 l2 h hclean hnn (canonDict [])
  simp only [format_github_tree_structure]
  rw [hemp]
  by_cases he : l2.isEmpty = true
  · simp only [if_pos he]
  · simp only [if_neg he]
    cases maxD with
    | none =>
      rw [format_rec_canon (build_hierarchical_tree l1) (build_hierarchical_tree l2) hbuild]
    | some mval =>
      by_cases hm : mval < 0
      · simp only [if_pos hm]
      · simp only [if_neg hm]
        rw [format_rec_canon (build_hierarchical_tree l1) (build_hierarchical_tree l2) hbuild]

/-- Counterexample to C2 as stated: the entry list `[x (blob), x/y (blob)]`
is a permutation of `[x/y (blob), x (blob)]`, yet the two orders render
differently — the entry processed later wins at the shared key `x`. -/
theorem C2_counterexample :
    ([⟨some "x", some "blob"⟩, ⟨some "x/y", some "blob"⟩] : List TreeEntry).Perm
      [⟨some "x/y", some "blob"⟩, ⟨some "x", some "blob"⟩] ∧
    format_github_tree_structure
        [⟨some "x", some "blob"⟩, ⟨some "x/y", some "blob"⟩] "o/r" none ≠
      format_github_tree_structure
        [⟨some "x/y", some "blob"⟩, ⟨some "x", some "blob"⟩] "o/r" none := by
  constructor
  · exact List.Perm.swap _ _ _
  · have e1 : format_github_tree_structure
        [⟨some "x", some "blob"⟩, ⟨some "x/y", some "blob"⟩] "o/r" none =
        "Directory structure:\n└── o/r/\n    └── x/\n        └── y" := by
      simp [format_github_tree_structure, build_hierarchical_tree, insertParts, pySplitStr,
        pySplit, setAssoc, getAssoc, isTreeDir, Node.ty, Node.children,
        format_tree_recursively, format_tree_items, sortPairs, insortPair, strLt, charsLt,
        charLt, String.intercalate, String.intercalate.go]
    have e2 : format_github_tree_structure
        [⟨some "x/y", some "blob"⟩, ⟨some "x", some "blob"⟩] "o/r" none =
        "Directory structure:\n└── o/r/\n    └── x" := by
      simp [format_github_tree_structure, build_hierarchical_tree, insertParts, pySplitStr,
        pySplit, setAssoc, getAssoc, isTreeDir, Node.ty, Node.children,
        format_tree_recursively, format_tree_items, sortPairs, insortPair, strLt, charsLt,
        charLt, String.intercalate, String.intercalate.go]
    rw [e1, e2]
    decide

/-- Witness for the amended C2 at a concrete two-entry list and its swap. -/
theorem C2_render_perm_invariant_witness :
    format_github_tree_structure
        [⟨some "b.txt", some "blob"⟩, ⟨some "a", some "tree"⟩] "o/r" none =
      format_github_tree_structure
        [⟨some "a", some "tree"⟩, ⟨some "b.txt", some "blob"⟩] "o/r" none :=
  C2_render_perm_invariant _ _ (List.Perm.swap _ _ _) (by decide) (by decide) "o/r" none

end GSB
